import Mathlib

/-!
# JokeList

A shallow embedding of `src/src/JokeList.js`, the React class component that
owns the list of jokes, and the properties of its methods.

* A joke record `{ joke, votes, id }` is the structure `Joke`; `votes` is a JavaScript
  number holding an integer, modelled by `Int`. The one sum the component takes,
  `j.votes + delta`, is the sum of two doubles (`addNumber`): exact up to `2 ^ 53` in
  magnitude, rounded to the nearest double beyond.
* `this.state` is `State`; the instance together with the two host facilities it
  touches (`window.localStorage` slot `"jokes"` and `alert`) is `Component`.
* `axios.get` is an oracle: a run of `getNewJokes` is fed the list of results
  its successive requests settle with, and hands back the results it never asked for.
* React calls `render` between a `setState` update and the callback given with it; the
  methods below are the updates themselves, `commit` is React's sequencing.
-/

namespace JokeList

/-- One element of `state.jokes`, built at line 66 as `{ joke, votes: 0, id }`. -/
structure Joke where
  joke : String
  votes : Int
  id : String
deriving DecidableEq, Repr

/-- The fields of `res.data` that `getNewJokes` reads (lines 63 and 66). -/
structure JokeData where
  id : String
  joke : String
deriving DecidableEq, Repr

/-- The value of `this.state` (lines 17-24). -/
structure State where
  jokes : List Joke
  loading : Bool
deriving DecidableEq, Repr

/-- The result one `await axios.get(API_URL, config)` settles with: the response with its
data, or the thrown error (as the text `alert` shows). -/
inductive ApiResult where
  | ok (data : JokeData)
  | error (err : String)
deriving DecidableEq, Repr

/-- The number of low bits of `n` a double cannot hold: `0` below `2 ^ 53`, and one more
each time `n` doubles from there (`fuel` bounds the count; `n` itself is enough). -/
def dropBits : Nat → Nat → Nat
  | 0, _ => 0
  | fuel + 1, n => if n < 2 ^ 53 then 0 else dropBits fuel (n / 2) + 1

/-- The natural number `n` rounded as IEEE-754 rounds it to a double with unbounded
exponent: to the nearest multiple of `2 ^ dropBits n n`, a tie going to the multiple whose
significand is even. -/
def roundNat (n : Nat) : Nat :=
  if 2 * (n % 2 ^ dropBits n n) < 2 ^ dropBits n n then
    n / 2 ^ dropBits n n * 2 ^ dropBits n n
  else if 2 * (n % 2 ^ dropBits n n) = 2 ^ dropBits n n ∧ n / 2 ^ dropBits n n % 2 = 0 then
    n / 2 ^ dropBits n n * 2 ^ dropBits n n
  else (n / 2 ^ dropBits n n + 1) * 2 ^ dropBits n n

/-- The magnitude `2 ^ 1024` (written as a product of four powers): a sum whose rounded
magnitude reaches it is an infinity. The largest double is `2 ^ 1024 - 2 ^ 971`. -/
def infinityBound : Nat := 2 ^ 256 * 2 ^ 256 * 2 ^ 256 * 2 ^ 256

/-- The JavaScript sum `a + b` of two numbers holding integers: the exact sum rounded to the
nearest double. `none` when the rounded magnitude reaches `2 ^ 1024`: the sum is then
`Infinity` or `-Infinity`, numbers `Joke.votes` has no value for. -/
def addNumber (a b : Int) : Option Int :=
  if roundNat (a + b).natAbs < infinityBound then
    some (if a + b < 0 then -(roundNat (a + b).natAbs : Int) else (roundNat (a + b).natAbs : Int))
  else none

/-- What the function mapped at lines 106-108 returns for one record:
`j.id === id ? { ...j, votes: j.votes + delta } : j`. -/
def voteOn (id : String) (delta : Int) (j : Joke) : Option Joke :=
  if j.id = id then
    match addNumber j.votes delta with
    | some votes => some { j with votes := votes }
    | none => none
  else some j

/-- `Array.prototype.map` with a function whose results may lie outside the embedding:
the mapped list, when every result is a record. -/
def mapJokes (f : Joke → Option Joke) : List Joke → Option (List Joke)
  | [] => some []
  | j :: js =>
    match f j, mapJokes f js with
    | some j1, some js1 => some (j1 :: js1)
    | _, _ => none

/-- The updater `handleVote` passes to `setState` (lines 105-109):
`st.jokes.map(j => j.id === id ? { ...j, votes: j.votes + delta } : j)`. `none` when a sum
is infinite, so that the new state has no value in `State`. -/
def handleVote (id : String) (delta : Int) (st : State) : Option State :=
  match mapJokes (voteOn id delta) st.jokes with
  | some jokes => some { st with jokes := jokes }
  | none => none

/-- The comparator of line 119, `(a, b) => b.votes - a.votes`, is not positive: `a` need not
move behind `b`. -/
def votesDesc (a b : Joke) : Prop := b.votes ≤ a.votes

instance : DecidableRel votesDesc := fun a b => inferInstanceAs (Decidable (b.votes ≤ a.votes))

/-- The call `Array.prototype.sort((a, b) => b.votes - a.votes)` of line 119, as a stable
sort (ECMAScript 2019). -/
def sortJokes (jokes : List Joke) : List Joke := jokes.insertionSort votesDesc

/-- The props of one `<Joke ... />` element (lines 125-132). The two closures are
represented by the arguments of the `handleVote` call each one makes. -/
structure JokeProps where
  key : String
  id : String
  text : String
  votes : Int
  upvote : String × Int
  downvote : String × Int
deriving DecidableEq, Repr

/-- The element built for one record by the `map` of lines 123-134. -/
def jokeElement (j : Joke) : JokeProps :=
  { key := j.id, id := j.id, text := j.joke, votes := j.votes,
    upvote := (j.id, 1), downvote := (j.id, -1) }

/-- The method `renderJokes` (lines 116-136): `sort` reorders `this.state.jokes` itself and
returns that same array, which is then mapped to elements. The result is the state left
behind and the elements returned. -/
def renderJokes (st : State) : State × List JokeProps :=
  let sortedJokes := sortJokes st.jokes
  ({ st with jokes := sortedJokes }, sortedJokes.map jokeElement)

/-- What `render` returns: the loader, or the page with the fetch button and the jokes. -/
inductive View where
  | loader
  | page (jokes : List JokeProps)
deriving DecidableEq, Repr

/-- The method `render` (lines 139-169). -/
def render (st : State) : State × View :=
  if st.loading then (st, View.loader)
  else ((renderJokes st).1, View.page (renderJokes st).2)

/-- How the `try` block of `getNewJokes` ends: the loop finished with the local array
`jokes`, or a request threw. Either way `rest` holds the results not asked for. -/
inductive LoopEnd where
  | done (jokes : List Joke) (rest : List ApiResult)
  | threw (err : String) (rest : List ApiResult)
deriving DecidableEq, Repr

/-- The loop of lines 54-68, run against the results of its successive requests, from
the local array `jokes`. `none`: the loop is still awaiting a response when the results
run out. -/
def fetchLoop (seenJokes : List String) (numJokesToGet : Nat) :
    List ApiResult → List Joke → Option LoopEnd
  | [], jokes => if jokes.length < numJokesToGet then none else some (LoopEnd.done jokes [])
  | res :: rest, jokes =>
    if jokes.length < numJokesToGet then
      match res with
      | ApiResult.error err => some (LoopEnd.threw err rest)
      | ApiResult.ok data =>
        if data.id ∈ seenJokes then fetchLoop seenJokes numJokesToGet rest jokes
        else fetchLoop seenJokes numJokesToGet rest
          (jokes ++ [{ joke := data.joke, votes := 0, id := data.id }])
    else some (LoopEnd.done jokes (res :: rest))

/-! ## The host's `JSON` object

`JSON.stringify` on an array of joke records and `JSON.parse` on any text, after
ECMA-262 (`QuoteJSONString`, `Number::toString` on integers) and the JSON grammar of ECMA-404.
Texts are `String`s, that is sequences of Unicode scalar values. -/

namespace JSON

/-- The lower-case hexadecimal digit of `n < 16`. -/
def hexDigit (n : Nat) : Char :=
  if n < 10 then Char.ofNat (48 + n) else Char.ofNat (87 + n)

/-- The text `QuoteJSONString` emits for one character. -/
def quoteChar (c : Char) : List Char :=
  if c = '"' then ['\\', '"']
  else if c = '\\' then ['\\', '\\']
  else if c = '\x08' then ['\\', 'b']
  else if c = '\x0c' then ['\\', 'f']
  else if c = '\n' then ['\\', 'n']
  else if c = '\r' then ['\\', 'r']
  else if c = '\t' then ['\\', 't']
  else if c.toNat < 32 then
    ['\\', 'u', '0', '0', hexDigit (c.toNat / 16), hexDigit (c.toNat % 16)]
  else [c]

/-- The characters `QuoteJSONString` emits between the two quotes. -/
def quoteChars : List Char → List Char
  | [] => []
  | c :: cs => quoteChar c ++ quoteChars cs

/-- `QuoteJSONString`: a string as a JSON string literal. -/
def quote (s : String) : List Char := '"' :: (quoteChars s.toList ++ ['"'])

/-- The decimal digits of `n`, most significant first, with `fuel` bounding their number. -/
def natDigits : Nat → Nat → List Char
  | 0, _ => []
  | fuel + 1, n =>
    if n < 10 then [Char.ofNat (48 + n)]
    else natDigits fuel (n / 10) ++ [Char.ofNat (48 + n % 10)]

/-- `Number::toString` on an integer: an optional minus sign and the decimal digits, the
form ECMA-262 gives every integer of magnitude below `10 ^ 21`. -/
def intText (i : Int) : List Char :=
  if i < 0 then '-' :: natDigits (i.natAbs + 1) i.natAbs else natDigits (i.natAbs + 1) i.natAbs

/-- `JSON.stringify` on one record: its three properties in creation order, each as its
quoted name, a colon and its value. -/
def stringifyJoke (j : Joke) : List Char :=
  '\x7b' :: (quote "joke" ++ ':' :: (quote j.joke ++ ',' :: (quote "votes" ++ ':' ::
    (intText j.votes ++ ',' :: (quote "id" ++ ':' :: (quote j.id ++ ['\x7d']))))))

/-- The elements of the array text, separated by commas. -/
def stringifyElements : List Joke → List Char
  | [] => []
  | [j] => stringifyJoke j
  | j :: k :: rest => stringifyJoke j ++ ',' :: stringifyElements (k :: rest)

/-- `JSON.stringify(this.state.jokes)`. -/
def stringify (jokes : List Joke) : String :=
  String.mk ('[' :: (stringifyElements jokes ++ [']']))

/-- A parsed JSON text. A number keeps the exact decimal value of its literal,
`mantissa * 10 ^ exponent`. -/
inductive Value where
  | null
  | bool (b : Bool)
  | num (mantissa : Int) (exponent : Int)
  | str (s : String)
  | arr (items : List Value)
  | obj (members : List (String × Value))

/-- JSON white space. -/
def isWs (c : Char) : Bool := c = ' ' || c = '\t' || c = '\n' || c = '\r'

/-- Drop leading white space. -/
def skipWs : List Char → List Char
  | [] => []
  | c :: cs => if isWs c then skipWs cs else c :: cs

/-- The value of a hexadecimal digit. -/
def hexVal (c : Char) : Option Nat :=
  if 48 ≤ c.toNat ∧ c.toNat ≤ 57 then some (c.toNat - 48)
  else if 97 ≤ c.toNat ∧ c.toNat ≤ 102 then some (c.toNat - 87)
  else if 65 ≤ c.toNat ∧ c.toNat ≤ 70 then some (c.toNat - 55)
  else none

/-- The four hexadecimal digits of a `\u` escape. -/
def parseHex4 : List Char → Option (Nat × List Char)
  | a :: b :: c :: d :: rest =>
    match hexVal a, hexVal b, hexVal c, hexVal d with
    | some x, some y, some z, some w => some (((x * 16 + y) * 16 + z) * 16 + w, rest)
    | _, _, _, _ => none
  | _ => none

/-- The character standing for a `\u` escape that is half of a surrogate pair without its
other half: such a code unit is no Unicode scalar value, so no `Char`. -/
def loneSurrogate : Char := Char.ofNat 0xFFFD

/-- One escape sequence, read after its backslash. Two `\u` escapes that form a surrogate
pair give the one character they encode. -/
def parseEscape : List Char → Option (Char × List Char)
  | [] => none
  | c :: rest =>
    if c = '"' then some ('"', rest)
    else if c = '\\' then some ('\\', rest)
    else if c = '/' then some ('/', rest)
    else if c = 'b' then some ('\x08', rest)
    else if c = 'f' then some ('\x0c', rest)
    else if c = 'n' then some ('\n', rest)
    else if c = 'r' then some ('\r', rest)
    else if c = 't' then some ('\t', rest)
    else if c = 'u' then
      match parseHex4 rest with
      | none => none
      | some (hi, rest1) =>
        if 0xD800 ≤ hi ∧ hi ≤ 0xDBFF then
          match rest1 with
          | '\\' :: 'u' :: rest2 =>
            match parseHex4 rest2 with
            | none => some (loneSurrogate, rest1)
            | some (lo, rest3) =>
              if 0xDC00 ≤ lo ∧ lo ≤ 0xDFFF then
                some (Char.ofNat (0x10000 + (hi - 0xD800) * 0x400 + (lo - 0xDC00)), rest3)
              else some (loneSurrogate, rest1)
          | _ => some (loneSurrogate, rest1)
        else if 0xDC00 ≤ hi ∧ hi ≤ 0xDFFF then some (loneSurrogate, rest1)
        else some (Char.ofNat hi, rest1)
    else none

/-- The characters of a string literal after its opening quote, up to and including the
closing quote. Every step reads at least one character, so `fuel` above the length of the
text never runs out. -/
def parseChars : Nat → List Char → List Char → Option (String × List Char)
  | 0, _, _ => none
  | _ + 1, [], _ => none
  | fuel + 1, c :: cs, acc =>
    if c = '"' then some (String.mk acc, cs)
    else if c = '\\' then
      match parseEscape cs with
      | none => none
      | some (ch, rest) => parseChars fuel rest (acc ++ [ch])
    else if c.toNat < 32 then none
    else parseChars fuel cs (acc ++ [c])

/-- A string literal, read after its opening quote. -/
def parseString (cs : List Char) : Option (String × List Char) :=
  parseChars (cs.length + 1) cs []

/-- The number written by a list of decimal digits. -/
def natOfDigits (ds : List Char) : Nat := ds.foldl (fun n c => 10 * n + (c.toNat - 48)) 0

/-- The integer part of a number literal: `0`, or a digit other than `0` and the digits
after it. -/
def parseIntDigits : List Char → Option (List Char × List Char)
  | [] => none
  | c :: rest =>
    if c = '0' then some (['0'], rest)
    else if c.isDigit then
      some (c :: rest.takeWhile Char.isDigit, rest.dropWhile Char.isDigit)
    else none

/-- The optional fraction of a number literal: its digits (none when absent). -/
def parseFraction : List Char → Option (List Char × List Char)
  | [] => some ([], [])
  | c :: rest =>
    if c = '.' then
      if rest.takeWhile Char.isDigit = [] then none
      else some (rest.takeWhile Char.isDigit, rest.dropWhile Char.isDigit)
    else some ([], c :: rest)

/-- The digits of an exponent, after its sign. -/
def parseExponentDigits (negative : Bool) (cs : List Char) : Option (Int × List Char) :=
  if cs.takeWhile Char.isDigit = [] then none
  else some (if negative then -(natOfDigits (cs.takeWhile Char.isDigit) : Int)
    else (natOfDigits (cs.takeWhile Char.isDigit) : Int), cs.dropWhile Char.isDigit)

/-- The optional exponent of a number literal (`0` when absent). -/
def parseExponent : List Char → Option (Int × List Char)
  | [] => some (0, [])
  | c :: rest =>
    if c = 'e' ∨ c = 'E' then
      match rest with
      | [] => none
      | s :: rest1 =>
        if s = '+' then parseExponentDigits false rest1
        else if s = '-' then parseExponentDigits true rest1
        else parseExponentDigits false (s :: rest1)
    else some (0, c :: rest)

/-- A number literal without its sign. -/
def parseUnsigned (negative : Bool) (cs : List Char) : Option (Value × List Char) :=
  match parseIntDigits cs with
  | none => none
  | some (intDs, cs1) =>
    match parseFraction cs1 with
    | none => none
    | some (fracDs, cs2) =>
      match parseExponent cs2 with
      | none => none
      | some (e, cs3) =>
        some (Value.num
          (if negative then -(natOfDigits (intDs ++ fracDs) : Int)
            else (natOfDigits (intDs ++ fracDs) : Int))
          (e - fracDs.length), cs3)

/-- A number literal. -/
def parseNumber : List Char → Option (Value × List Char)
  | [] => none
  | c :: rest => if c = '-' then parseUnsigned true rest else parseUnsigned false (c :: rest)

/-- Drop the characters of `word` from the front of the text, if they are there. -/
def dropWord : List Char → List Char → Option (List Char)
  | [], cs => some cs
  | _ :: _, [] => none
  | w :: ws, c :: cs => if w = c then dropWord ws cs else none

mutual

/-- One JSON value and the text after it. The three functions pass `fuel` down as they
descend; twice the length of the text, plus two, never runs out. -/
def parseValue : Nat → List Char → Option (Value × List Char)
  | 0, _ => none
  | fuel + 1, cs =>
    match skipWs cs with
    | [] => none
    | c :: rest =>
      if c = '[' then
        match skipWs rest with
        | [] => none
        | c1 :: rest1 =>
          if c1 = ']' then some (Value.arr [], rest1) else parseElements fuel rest []
      else if c = '\x7b' then
        match skipWs rest with
        | [] => none
        | c1 :: rest1 =>
          if c1 = '\x7d' then some (Value.obj [], rest1) else parseMembers fuel rest []
      else if c = '"' then
        match parseString rest with
        | none => none
        | some (s, rest1) => some (Value.str s, rest1)
      else if c = 't' then (dropWord "rue".toList rest).map fun r => (Value.bool true, r)
      else if c = 'f' then (dropWord "alse".toList rest).map fun r => (Value.bool false, r)
      else if c = 'n' then (dropWord "ull".toList rest).map fun r => (Value.null, r)
      else parseNumber (c :: rest)

/-- The elements of an array after the first bracket or a comma, up to and including the
closing bracket; `acc` holds the elements read so far. -/
def parseElements : Nat → List Char → List Value → Option (Value × List Char)
  | 0, _, _ => none
  | fuel + 1, cs, acc =>
    match parseValue fuel cs with
    | none => none
    | some (v, rest) =>
      match skipWs rest with
      | [] => none
      | c :: rest1 =>
        if c = ',' then parseElements fuel rest1 (acc ++ [v])
        else if c = ']' then some (Value.arr (acc ++ [v]), rest1)
        else none

/-- The members of an object after the first brace or a comma, up to and including the
closing brace; `acc` holds the members read so far. -/
def parseMembers : Nat → List Char → List (String × Value) → Option (Value × List Char)
  | 0, _, _ => none
  | fuel + 1, cs, acc =>
    match skipWs cs with
    | [] => none
    | q :: rest =>
      if q = '"' then
        match parseString rest with
        | none => none
        | some (key, rest1) =>
          match skipWs rest1 with
          | [] => none
          | colon :: rest2 =>
            if colon = ':' then
              match parseValue fuel rest2 with
              | none => none
              | some (v, rest3) =>
                match skipWs rest3 with
                | [] => none
                | c :: rest4 =>
                  if c = ',' then parseMembers fuel rest4 (acc ++ [(key, v)])
                  else if c = '\x7d' then some (Value.obj (acc ++ [(key, v)]), rest4)
                  else none
            else none
      else none

end

/-- `JSON.parse(text)`; `none` when it throws a `SyntaxError`. -/
def parse (text : String) : Option Value :=
  match parseValue (2 * text.length + 2) text.toList with
  | none => none
  | some (v, rest) => if skipWs rest = [] then some v else none

/-- The integer a number value is, if it is one. -/
def Value.toInt? : Value → Option Int
  | Value.num m e =>
    if 0 ≤ e then some (m * 10 ^ e.toNat)
    else if m % 10 ^ (-e).toNat = 0 then some (m / 10 ^ (-e).toNat)
    else none
  | _ => none

/-- Property `key` of a parsed object: when a name is repeated, the last one wins. -/
def getProperty (members : List (String × Value)) (key : String) : Option Value :=
  members.reverse.lookup key

/-- The value `JSON.parse` reads back from the text of one record. -/
def jokeValue (j : Joke) : Value :=
  Value.obj [("joke", Value.str j.joke), ("votes", Value.num j.votes 0), ("id", Value.str j.id)]

end JSON

/-! ## The component -/

/-- The instance (`this.state`, `this.seenJokes`, `this.props.numJokesToGet`) and what it
reaches in the host: the `"jokes"` slot of `window.localStorage` (`none` while no item is
stored) and the messages `alert` has shown. -/
structure Component where
  state : State
  seenJokes : List String
  numJokesToGet : Nat
  storage : Option String
  alerts : List String
deriving DecidableEq, Repr

/-- Why construction did not give a component of this embedding: `JSON.parse` threw a
`SyntaxError`; line 26 threw a `TypeError` (the parsed value has no `map` method, or an
element is `null`); or nothing threw but the array holds elements that are not joke
records, a state `State` has no value for. -/
inductive InitError where
  | syntaxError
  | typeError
  | untyped
deriving DecidableEq, Repr

/-- The record a parsed array element is, when it is an object whose `joke` and `id` are
strings and whose `votes` is an integer. -/
def decodeJoke : JSON.Value → Option Joke
  | JSON.Value.obj members =>
    match JSON.getProperty members "joke", JSON.getProperty members "votes",
      JSON.getProperty members "id" with
    | some (JSON.Value.str joke), some votes, some (JSON.Value.str id) =>
      match votes.toInt? with
      | some n => some { joke := joke, votes := n, id := id }
      | none => none
    | _, _, _ => none
  | _ => none

/-- The records of a parsed array, when every element is one. -/
def decodeJokes : List JSON.Value → Option (List Joke)
  | [] => some []
  | v :: vs =>
    match decodeJoke v, decodeJokes vs with
    | some j, some js => some (j :: js)
    | _, _ => none

/-- Whether a parsed value is `null`. -/
def isNull : JSON.Value → Bool
  | JSON.Value.null => true
  | _ => false

/-- The text line 20 hands to `JSON.parse`: `window.localStorage.getItem("jokes") || "[]"`,
where `getItem` gives `null` for an absent item and the empty string is falsy as well. -/
def storedText (storage : Option String) : String :=
  match storage with
  | none => "[]"
  | some item => if item = "" then "[]" else item

/-- The constructor (lines 15-30), for props `{ numJokesToGet }` and the content of the
`"jokes"` slot. -/
def constructor (numJokesToGet : Nat) (storage : Option String) : Except InitError Component :=
  match JSON.parse (storedText storage) with
  | none => Except.error InitError.syntaxError
  | some (JSON.Value.arr items) =>
    if items.any isNull then Except.error InitError.typeError
    else
      match decodeJokes items with
      | none => Except.error InitError.untyped
      | some jokes =>
        Except.ok
          { state := { jokes := jokes, loading := false },
            seenJokes := jokes.map fun j => j.id,
            numJokesToGet := numJokesToGet,
            storage := storage,
            alerts := [] }
  | some _ => Except.error InitError.typeError

/-- The method `componentDidMount` (lines 34-40): whether it calls `getNewJokes`. -/
def componentDidMount (c : Component) : Bool :=
  decide (c.state.jokes.length = 0)

/-- How a run of `getNewJokes` ends: the component once the `setState` of line 71 or of
line 90 has updated the state, whether that `setState` was given the callback that writes
`localStorage` (line 75), and the results never asked for. -/
structure CycleEnd where
  comp : Component
  callback : Bool
  rest : List ApiResult
deriving DecidableEq, Repr

/-- The method `getNewJokes` (lines 43-92), run against the results of its successive
requests. `none`: the run is still awaiting a response when the results run out. -/
def getNewJokes (c : Component) (results : List ApiResult) : Option CycleEnd :=
  match fetchLoop c.seenJokes c.numJokesToGet results [] with
  | none => none
  | some (LoopEnd.done jokes rest) =>
    some
      { comp := { c with state := { jokes := c.state.jokes ++ jokes, loading := false } },
        callback := true,
        rest := rest }
  | some (LoopEnd.threw err rest) =>
    some
      { comp := { c with alerts := c.alerts ++ [err], state := { c.state with loading := false } },
        callback := false,
        rest := rest }

/-- The state update of `handleClick` (line 97), `setState({ loading: true }, ...)`; its
callback is `getNewJokes`. -/
def handleClick (c : Component) : Component :=
  { c with state := { c.state with loading := true } }

/-- The callback of lines 75 and 111:
`window.localStorage.setItem("jokes", JSON.stringify(this.state.jokes))`. -/
def persistJokes (c : Component) : Component :=
  { c with storage := some (JSON.stringify c.state.jokes) }

/-- React calling `render` on the component. -/
def rerender (c : Component) : Component :=
  { c with state := (render c.state).1 }

/-- What React does once a `setState` has updated the state: it calls `render`, then the
callback if one was given. -/
def commit (c : Component) (callback : Bool) : Component :=
  if callback then persistJokes (rerender c) else rerender c

/-- What happens to a mounted component: the fetch button is clicked and the cycle is
fed `results`; a vote button calls `handleVote(id, delta)`; React renders again. -/
inductive Event where
  | click (results : List ApiResult)
  | vote (id : String) (delta : Int)
  | render
deriving DecidableEq, Repr

/-- One event, carried through to the end of React's work on it. `none`: the fetch
cycle does not end on the results given, or the vote leaves a state outside `State`. -/
def step (c : Component) : Event → Option Component
  | Event.click results =>
    match getNewJokes (rerender (handleClick c)) results with
    | none => none
    | some e => some (commit e.comp e.callback)
  | Event.vote id delta =>
    match handleVote id delta c.state with
    | none => none
    | some st => some (commit { c with state := st } true)
  | Event.render => some (rerender c)

/-- A sequence of events, one after the other. -/
def run : Component → List Event → Option Component
  | c, [] => some c
  | c, ev :: evs =>
    match step c ev with
    | none => none
    | some c1 => run c1 evs

/-- Page load: the constructor, the first `render`, then `componentDidMount` and, when it
starts one, the fetch cycle fed `results`. -/
def mount (numJokesToGet : Nat) (storage : Option String) (results : List ApiResult) :
    Except InitError (Option Component) :=
  match constructor numJokesToGet storage with
  | Except.error e => Except.error e
  | Except.ok c =>
    if componentDidMount (rerender c) then
      match getNewJokes (rerender c) results with
      | none => Except.ok none
      | some e => Except.ok (some (commit e.comp e.callback))
    else Except.ok (some (rerender c))

/-- The comparator is total. -/
instance : IsTotal Joke votesDesc := ⟨fun a b => le_total b.votes a.votes⟩

/-- The comparator is transitive. -/
instance : IsTrans Joke votesDesc := ⟨fun _ _ _ hab hbc => le_trans hbc hab⟩

/-- The record line 66 builds from a response. -/
def newJoke (d : JokeData) : Joke := { joke := d.joke, votes := 0, id := d.id }

/-- The responses the test of line 63 lets through. -/
def fresh (seenJokes : List String) (rs : List JokeData) : List JokeData :=
  rs.filter fun d => d.id ∉ seenJokes

end JokeList

/-! ## Lemmas -/

namespace JokeList

theorem sortJokes_perm (jokes : List Joke) : (sortJokes jokes).Perm jokes :=
  List.perm_insertionSort votesDesc jokes

theorem sortJokes_sorted (jokes : List Joke) :
    (sortJokes jokes).Pairwise fun a b => b.votes ≤ a.votes :=
  List.sorted_insertionSort votesDesc jokes

theorem sortJokes_of_sorted {jokes : List Joke}
    (h : jokes.Pairwise fun a b => b.votes ≤ a.votes) : sortJokes jokes = jokes :=
  List.Sorted.insertionSort_eq h

theorem sortJokes_votes_sorted (jokes : List Joke) :
    ((sortJokes jokes).map fun j => j.votes).Pairwise fun x y => y ≤ x := by
  rw [List.pairwise_map]
  exact sortJokes_sorted jokes

theorem fresh_cons_seen {seen : List String} {d : JokeData} (rs : List JokeData)
    (h : d.id ∈ seen) : fresh seen (d :: rs) = fresh seen rs := by
  simp [fresh, h]

theorem fresh_cons_new {seen : List String} {d : JokeData} (rs : List JokeData)
    (h : d.id ∉ seen) : fresh seen (d :: rs) = d :: fresh seen rs := by
  simp [fresh, h]

theorem fetchLoop_done (seen : List String) (n : Nat) (rs : List JokeData) :
    ∀ acc : List Joke, acc.length ≤ n → n ≤ acc.length + (fresh seen rs).length →
      ∃ consumed rest, rs = consumed ++ rest ∧
        acc.length + (fresh seen consumed).length = n ∧
        (∀ q r, consumed = q ++ r → r ≠ [] → acc.length + (fresh seen q).length < n) ∧
        fetchLoop seen n (rs.map ApiResult.ok) acc
          = some (LoopEnd.done (acc ++ (fresh seen consumed).map newJoke)
              (rest.map ApiResult.ok)) := by
  induction rs with
  | nil =>
    intro acc hle hge
    refine ⟨[], [], rfl, ?_, ?_, ?_⟩
    · simp [fresh] at hge ⊢; omega
    · intro q r hqr hr
      have := congrArg List.length hqr
      cases r with
      | nil => exact absurd rfl hr
      | cons x xs => simp at this; omega
    · have hn : ¬ acc.length < n := by simp [fresh] at hge; omega
      simp [fetchLoop, hn, fresh]
  | cons d rs ih =>
    intro acc hle hge
    by_cases hlt : acc.length < n
    · by_cases hseen : d.id ∈ seen
      · rw [fresh_cons_seen rs hseen] at hge
        obtain ⟨consumed, rest, hrs, hcount, hmin, hrun⟩ := ih acc hle hge
        refine ⟨d :: consumed, rest, by rw [hrs]; rfl, ?_, ?_, ?_⟩
        · rw [fresh_cons_seen consumed hseen]; exact hcount
        · intro q r hqr hr
          cases q with
          | nil => simpa [fresh] using hlt
          | cons x q =>
            simp only [List.cons_append, List.cons.injEq] at hqr
            rw [← hqr.1, fresh_cons_seen q hseen]
            exact hmin q r hqr.2 hr
        · rw [fresh_cons_seen consumed hseen]
          simpa [fetchLoop, hlt, hseen] using hrun
      · rw [fresh_cons_new rs hseen] at hge
        have hle1 : (acc ++ [newJoke d]).length ≤ n := by simp; omega
        have hge1 : n ≤ (acc ++ [newJoke d]).length + (fresh seen rs).length := by
          simp at hge ⊢; omega
        obtain ⟨consumed, rest, hrs, hcount, hmin, hrun⟩ := ih (acc ++ [newJoke d]) hle1 hge1
        refine ⟨d :: consumed, rest, by rw [hrs]; rfl, ?_, ?_, ?_⟩
        · rw [fresh_cons_new consumed hseen]; simp at hcount ⊢; omega
        · intro q r hqr hr
          cases q with
          | nil => simpa [fresh] using hlt
          | cons x q =>
            simp only [List.cons_append, List.cons.injEq] at hqr
            rw [← hqr.1, fresh_cons_new q hseen]
            have := hmin q r hqr.2 hr
            simp at this ⊢; omega
        · rw [fresh_cons_new consumed hseen]
          simpa [fetchLoop, hlt, hseen, newJoke] using hrun
    · refine ⟨[], d :: rs, rfl, ?_, ?_, ?_⟩
      · simp [fresh]; omega
      · intro q r hqr hr
        have := congrArg List.length hqr
        cases r with
        | nil => exact absurd rfl hr
        | cons x xs => simp at this; omega
      · simp [fetchLoop, hlt, fresh]

theorem fetchLoop_threw (seen : List String) (n : Nat) (err : String) (post : List ApiResult)
    (pre : List JokeData) :
    ∀ acc : List Joke, acc.length + (fresh seen pre).length < n →
      fetchLoop seen n (pre.map ApiResult.ok ++ ApiResult.error err :: post) acc
        = some (LoopEnd.threw err post) := by
  induction pre with
  | nil =>
    intro acc h
    have hlt : acc.length < n := by simp [fresh] at h; omega
    simp [fetchLoop, hlt]
  | cons d pre ih =>
    intro acc h
    by_cases hseen : d.id ∈ seen
    · rw [fresh_cons_seen pre hseen] at h
      have hlt : acc.length < n := by omega
      simpa [fetchLoop, hlt, hseen] using ih acc h
    · rw [fresh_cons_new pre hseen] at h
      have hlt : acc.length < n := by simp at h; omega
      have h1 : (acc ++ [newJoke d]).length + (fresh seen pre).length < n := by
        simp at h ⊢; omega
      simpa [fetchLoop, hlt, hseen, newJoke] using ih (acc ++ [newJoke d]) h1

end JokeList

namespace JokeList

theorem dropBits_of_lt (fuel n : Nat) (h : n < 2 ^ 53) : dropBits fuel n = 0 := by
  cases fuel with
  | zero => rfl
  | succ fuel => rw [dropBits, if_pos h]

theorem roundNat_of_le (n : Nat) (h : n ≤ 2 ^ 53) : roundNat n = n := by
  rcases Nat.lt_or_ge n (2 ^ 53) with hlt | hge
  · simp [roundNat, dropBits_of_lt n n hlt, Nat.mod_one]
  · have hn : n = 2 ^ 53 := Nat.le_antisymm h hge
    rw [hn]
    decide

theorem addNumber_of_le (a b : Int) (h : (a + b).natAbs ≤ 2 ^ 53) :
    addNumber a b = some (a + b) := by
  have hlt : roundNat (a + b).natAbs < infinityBound := by
    rw [roundNat_of_le _ h]
    exact Nat.lt_of_le_of_lt h (by decide)
  unfold addNumber
  rw [if_pos hlt, roundNat_of_le _ h]
  split_ifs with hneg
  · congr 1; omega
  · congr 1; omega

theorem voteOn_of_ne {id : String} (delta : Int) {j : Joke} (h : j.id ≠ id) :
    voteOn id delta j = some j := by
  simp [voteOn, h]

theorem voteOn_spec {id : String} {delta : Int} {j j1 : Joke} (h : voteOn id delta j = some j1) :
    j1.id = j.id ∧ j1.joke = j.joke ∧
      (j.id = id → addNumber j.votes delta = some j1.votes) ∧ (j.id ≠ id → j1 = j) := by
  unfold voteOn at h
  split_ifs at h with hid
  · cases hadd : addNumber j.votes delta with
    | none => rw [hadd] at h; exact absurd h (by simp)
    | some votes =>
      rw [hadd] at h
      simp only [Option.some.injEq] at h
      subst h
      exact ⟨rfl, rfl, fun _ => rfl, fun hne => absurd hid hne⟩
  · simp only [Option.some.injEq] at h
    subst h
    exact ⟨rfl, rfl, fun he => absurd he hid, fun _ => rfl⟩

theorem voteOn_isSome (id : String) (delta : Int) (j : Joke) :
    (voteOn id delta j).isSome = true ↔ (j.id = id → (addNumber j.votes delta).isSome = true) := by
  unfold voteOn
  split_ifs with hid
  · cases addNumber j.votes delta <;> simp [hid]
  · simp [hid]

theorem mapJokes_cons {f : Joke → Option Joke} {j : Joke} {js l1 : List Joke}
    (h : mapJokes f (j :: js) = some l1) :
    ∃ j1 js1, l1 = j1 :: js1 ∧ f j = some j1 ∧ mapJokes f js = some js1 := by
  rw [mapJokes] at h
  cases hj : f j with
  | none => rw [hj] at h; exact absurd h (by simp)
  | some j1 =>
    cases hjs : mapJokes f js with
    | none => rw [hj, hjs] at h; exact absurd h (by simp)
    | some js1 =>
      rw [hj, hjs] at h
      simp only [Option.some.injEq] at h
      exact ⟨j1, js1, h.symm, rfl, rfl⟩

theorem mapJokes_forall₂ {f : Joke → Option Joke} : ∀ {l l1 : List Joke},
    mapJokes f l = some l1 → List.Forall₂ (fun j j1 => f j = some j1) l l1 := by
  intro l
  induction l with
  | nil =>
    intro l1 h
    simp only [mapJokes, Option.some.injEq] at h
    subst h
    exact List.Forall₂.nil
  | cons j js ih =>
    intro l1 h
    obtain ⟨j1, js1, rfl, hj, hjs⟩ := mapJokes_cons h
    exact List.Forall₂.cons hj (ih hjs)

theorem mapJokes_length {f : Joke → Option Joke} {l l1 : List Joke}
    (h : mapJokes f l = some l1) : l1.length = l.length :=
  (mapJokes_forall₂ h).length_eq.symm

theorem mapJokes_getElem? {f : Joke → Option Joke} : ∀ {l l1 : List Joke} {i : Nat} {j : Joke},
    mapJokes f l = some l1 → l[i]? = some j → ∃ j1, l1[i]? = some j1 ∧ f j = some j1 := by
  intro l
  induction l with
  | nil => intro l1 i j _ hj; simp at hj
  | cons k ks ih =>
    intro l1 i j h hj
    obtain ⟨k1, ks1, rfl, hk, hks⟩ := mapJokes_cons h
    cases i with
    | zero =>
      simp only [List.getElem?_cons_zero, Option.some.injEq] at hj
      subst hj
      exact ⟨k1, by simp, hk⟩
    | succ i =>
      simp only [List.getElem?_cons_succ] at hj ⊢
      exact ih hks hj

theorem mapJokes_eq_map (f : Joke → Option Joke) (g : Joke → Joke) : ∀ (l : List Joke),
    (∀ j ∈ l, f j = some (g j)) → mapJokes f l = some (l.map g) := by
  intro l
  induction l with
  | nil => intro _; rfl
  | cons j js ih =>
    intro h
    rw [mapJokes, h j (List.mem_cons_self j js),
      ih fun k hk => h k (List.mem_cons_of_mem j hk)]
    rfl

theorem mapJokes_of_fixed (f : Joke → Option Joke) (l : List Joke)
    (h : ∀ j ∈ l, f j = some j) : mapJokes f l = some l := by
  have := mapJokes_eq_map f id l (by simpa using h)
  simpa using this

theorem mapJokes_fixed {f : Joke → Option Joke} {l l1 : List Joke}
    (h : mapJokes f l = some l1) (hfix : ∀ j ∈ l, f j = some j) : l1 = l := by
  rw [mapJokes_of_fixed f l hfix] at h
  exact (Option.some.inj h).symm

theorem mapJokes_append {f : Joke → Option Joke} : ∀ {pre post l1 : List Joke},
    mapJokes f (pre ++ post) = some l1 →
    ∃ pre1 post1, l1 = pre1 ++ post1 ∧ mapJokes f pre = some pre1 ∧
      mapJokes f post = some post1 := by
  intro pre
  induction pre with
  | nil => intro post l1 h; exact ⟨[], l1, rfl, rfl, h⟩
  | cons j js ih =>
    intro post l1 h
    obtain ⟨j1, rest1, rfl, hj, hrest⟩ := mapJokes_cons h
    obtain ⟨pre1, post1, rfl, hpre, hpost⟩ := ih hrest
    refine ⟨j1 :: pre1, post1, rfl, ?_, hpost⟩
    rw [mapJokes, hj, hpre]

theorem mapJokes_isSome {f : Joke → Option Joke} : ∀ (l : List Joke),
    (mapJokes f l).isSome = true ↔ ∀ j ∈ l, (f j).isSome = true := by
  intro l
  induction l with
  | nil => simp [mapJokes]
  | cons j js ih =>
    rw [mapJokes]
    cases hj : f j with
    | none => simp [hj]
    | some j1 =>
      cases hjs : mapJokes f js with
      | none =>
        rw [hjs] at ih
        simp only [Option.isSome_none, Bool.false_eq_true, false_iff] at ih
        simp only [Option.isSome_none, Bool.false_eq_true, List.mem_cons, forall_eq_or_imp,
          false_iff, not_and]
        intro _
        exact ih
      | some js1 =>
        rw [hjs] at ih
        simp only [Option.isSome_some, true_iff] at ih
        simp only [Option.isSome_some, List.mem_cons, forall_eq_or_imp, hj, true_and, true_iff]
        exact ih

theorem handleVote_some {id : String} {delta : Int} {st st1 : State}
    (h : handleVote id delta st = some st1) :
    ∃ jokes, mapJokes (voteOn id delta) st.jokes = some jokes ∧
      st1 = { st with jokes := jokes } := by
  unfold handleVote at h
  cases hmap : mapJokes (voteOn id delta) st.jokes with
  | none => rw [hmap] at h; exact absurd h (by simp)
  | some jokes =>
    rw [hmap] at h
    simp only [Option.some.injEq] at h
    exact ⟨jokes, rfl, h.symm⟩

theorem handleVote_isSome (id : String) (delta : Int) (st : State) :
    (handleVote id delta st).isSome = (mapJokes (voteOn id delta) st.jokes).isSome := by
  unfold handleVote
  cases mapJokes (voteOn id delta) st.jokes <;> rfl

end JokeList

namespace JokeList
namespace JSON

theorem skipWs_cons {c : Char} (cs : List Char) (h : isWs c = false) :
    skipWs (c :: cs) = c :: cs := by
  simp [skipWs, h]

theorem hexVal_hexDigit (k : Nat) (h : k < 16) : hexVal (hexDigit k) = some k := by
  interval_cases k <;> decide

theorem length_le_quoteChars (cs : List Char) : cs.length ≤ (quoteChars cs).length := by
  induction cs with
  | nil => simp [quoteChars]
  | cons c cs ih =>
    have : 1 ≤ (quoteChar c).length := by
      unfold quoteChar
      split_ifs <;> simp
    simp [quoteChars]; omega

theorem parseEscape_quoteChar (c : Char) (rest : List Char) :
    (c.toNat < 32 ∨ c = '"' ∨ c = '\\') →
    ∃ tail, quoteChar c = '\\' :: tail ∧ parseEscape (tail ++ rest) = some (c, rest) := by
  intro hc
  unfold quoteChar
  split_ifs with h1 h2 h3 h4 h5 h6 h7 h8
  · exact ⟨_, rfl, by subst h1; simp [parseEscape]⟩
  · exact ⟨_, rfl, by subst h2; simp [parseEscape]⟩
  · exact ⟨_, rfl, by subst h3; simp [parseEscape]⟩
  · exact ⟨_, rfl, by subst h4; simp [parseEscape]⟩
  · exact ⟨_, rfl, by subst h5; simp [parseEscape]⟩
  · exact ⟨_, rfl, by subst h6; simp [parseEscape]⟩
  · exact ⟨_, rfl, by subst h7; simp [parseEscape]⟩
  · refine ⟨_, rfl, ?_⟩
    have hd1 : hexVal (hexDigit (c.toNat / 16)) = some (c.toNat / 16) :=
      hexVal_hexDigit _ (by omega)
    have hd2 : hexVal (hexDigit (c.toNat % 16)) = some (c.toNat % 16) :=
      hexVal_hexDigit _ (by omega)
    have h0 : hexVal '0' = some 0 := by decide
    have hval : ((0 * 16 + 0) * 16 + c.toNat / 16) * 16 + c.toNat % 16 = c.toNat := by omega
    have hval1 : c.toNat / 16 * 16 + c.toNat % 16 = c.toNat := by omega
    have hlo : ¬ (55296 ≤ c.toNat ∧ c.toNat ≤ 56319) := by omega
    have hhi : ¬ (56320 ≤ c.toNat ∧ c.toNat ≤ 57343) := by omega
    simp [parseEscape, parseHex4, hd1, hd2, h0, hval1, hlo, hhi]
  · rcases hc with hc | hc | hc
    · exact absurd hc h8
    · exact absurd hc h1
    · exact absurd hc h2


theorem parseChars_quoteChars (s rest : List Char) :
    ∀ (fuel : Nat) (acc : List Char), s.length < fuel →
      parseChars fuel (quoteChars s ++ '"' :: rest) acc = some (String.mk (acc ++ s), rest) := by
  induction s with
  | nil =>
    intro fuel acc hf
    obtain ⟨f, rfl⟩ : ∃ f, fuel = f + 1 := ⟨fuel - 1, by simp at hf; omega⟩
    simp [quoteChars, parseChars]
  | cons c s ih =>
    intro fuel acc hf
    obtain ⟨f, rfl⟩ : ∃ f, fuel = f + 1 := ⟨fuel - 1, by simp at hf; omega⟩
    have hf1 : s.length < f := by simp at hf; omega
    by_cases hc : c.toNat < 32 ∨ c = '"' ∨ c = '\\'
    · obtain ⟨tail, htail, hesc⟩ := parseEscape_quoteChar c (quoteChars s ++ '"' :: rest) hc
      simp only [quoteChars, htail, List.cons_append, List.append_assoc, parseChars]
      simp [hesc, ih f (acc ++ [c]) hf1]
    · have h1 : c ≠ '"' := fun h => hc (Or.inr (Or.inl h))
      have h2 : c ≠ '\\' := fun h => hc (Or.inr (Or.inr h))
      have h3 : ¬ c.toNat < 32 := fun h => hc (Or.inl h)
      have hq : quoteChar c = [c] := by
        unfold quoteChar
        split_ifs <;>
          first
          | rfl
          | contradiction
          | (rename_i h; exact absurd (by rw [h]; decide) h3)
      simp only [quoteChars, hq, List.cons_append, List.nil_append, parseChars]
      simp [h1, h2, h3, ih f (acc ++ [c]) hf1]

theorem parseString_quote (s : String) (rest : List Char) :
    parseString (quoteChars s.toList ++ '"' :: rest) = some (s, rest) := by
  unfold parseString
  have hlen : s.toList.length < (quoteChars s.toList ++ '"' :: rest).length + 1 := by
    have := length_le_quoteChars s.toList
    rw [List.length_append]
    omega
  rw [parseChars_quoteChars s.toList rest _ [] hlen]
  rfl

theorem digit_isDigit (k : Nat) (h : k < 10) : (Char.ofNat (48 + k)).isDigit = true := by
  interval_cases k <;> decide

theorem digit_val (k : Nat) (h : k < 10) : (Char.ofNat (48 + k)).toNat - 48 = k := by
  interval_cases k <;> decide

theorem digit_ne_zero (k : Nat) (h : k < 10) (h0 : 0 < k) : Char.ofNat (48 + k) ≠ '0' := by
  interval_cases k <;> decide

theorem isDigit_ne_minus (c : Char) (h : c.isDigit = true) : c ≠ '-' := by
  intro hc
  subst hc
  revert h
  decide

theorem natDigits_zero (fuel : Nat) : natDigits (fuel + 1) 0 = ['0'] := by
  simp [natDigits]

theorem natDigits_isDigit : ∀ (fuel n : Nat), n < fuel →
    ∀ c ∈ natDigits fuel n, c.isDigit = true := by
  intro fuel
  induction fuel with
  | zero => intro n h; omega
  | succ fuel ih =>
    intro n h c hc
    unfold natDigits at hc
    split_ifs at hc with hn
    · rw [List.mem_singleton] at hc
      rw [hc]
      exact digit_isDigit n hn
    · rw [List.mem_append, List.mem_singleton] at hc
      rcases hc with hc | hc
      · exact ih (n / 10) (by omega) c hc
      · rw [hc]
        exact digit_isDigit (n % 10) (by omega)

theorem natOfDigits_snoc (ds : List Char) (d : Char) :
    natOfDigits (ds ++ [d]) = 10 * natOfDigits ds + (d.toNat - 48) := by
  simp [natOfDigits, List.foldl_append]

theorem natOfDigits_natDigits : ∀ (fuel n : Nat), n < fuel →
    natOfDigits (natDigits fuel n) = n := by
  intro fuel
  induction fuel with
  | zero => intro n h; omega
  | succ fuel ih =>
    intro n h
    unfold natDigits
    split_ifs with hn
    · simp [natOfDigits, digit_val n hn]
    · rw [natOfDigits_snoc, ih (n / 10) (by omega), digit_val (n % 10) (by omega)]
      omega

theorem natDigits_head : ∀ (fuel n : Nat), n < fuel → 0 < n →
    ∃ d tail, natDigits fuel n = d :: tail ∧ d ≠ '0' ∧ d.isDigit = true := by
  intro fuel
  induction fuel with
  | zero => intro n h; omega
  | succ fuel ih =>
    intro n h h0
    unfold natDigits
    split_ifs with hn
    · exact ⟨_, [], rfl, digit_ne_zero n hn h0, digit_isDigit n hn⟩
    · obtain ⟨d, tail, hd, hne, hdig⟩ := ih (n / 10) (by omega) (by omega)
      exact ⟨d, tail ++ [Char.ofNat (48 + n % 10)], by rw [hd]; rfl, hne, hdig⟩

theorem takeWhile_digits (ds : List Char) (r : Char) (rest : List Char)
    (hds : ∀ c ∈ ds, c.isDigit = true) (hr : r.isDigit = false) :
    (ds ++ r :: rest).takeWhile Char.isDigit = ds ∧
      (ds ++ r :: rest).dropWhile Char.isDigit = r :: rest := by
  induction ds with
  | nil => simp [List.takeWhile, List.dropWhile, hr]
  | cons d ds ih =>
    have hd : d.isDigit = true := hds d (List.mem_cons_self d ds)
    have := ih fun c hc => hds c (List.mem_cons_of_mem d hc)
    simp [List.takeWhile, List.dropWhile, hd, this]

theorem parseUnsigned_natDigits (negative : Bool) (fuel n : Nat) (h : n < fuel)
    (rest : List Char) :
    parseUnsigned negative (natDigits fuel n ++ ',' :: rest)
      = some (Value.num (if negative then -(n : Int) else (n : Int)) 0, ',' :: rest) := by
  have hcomma : (',' : Char).isDigit = false := by decide
  have hint : parseIntDigits (natDigits fuel n ++ ',' :: rest)
      = some (natDigits fuel n, ',' :: rest) := by
    rcases Nat.eq_zero_or_pos n with h0 | h0
    · subst h0
      obtain ⟨f, rfl⟩ : ∃ f, fuel = f + 1 := ⟨fuel - 1, by omega⟩
      rw [natDigits_zero]
      rfl
    · obtain ⟨d, tail, hd, hne, hdig⟩ := natDigits_head fuel n h h0
      have hall := natDigits_isDigit fuel n h
      rw [hd] at hall ⊢
      have htail := takeWhile_digits tail ',' rest
        (fun c hc => hall c (List.mem_cons_of_mem d hc)) hcomma
      simp [parseIntDigits, hne, hdig, htail.1, htail.2]
  have hfrac : parseFraction (',' :: rest) = some ([], ',' :: rest) := by
    simp [parseFraction]
  have hexp : parseExponent (',' :: rest) = some (0, ',' :: rest) := by
    simp [parseExponent]
  simp [parseUnsigned, hint, hfrac, hexp, natOfDigits_natDigits fuel n h]

theorem parseNumber_intText (v : Int) (rest : List Char) :
    parseNumber (intText v ++ ',' :: rest) = some (Value.num v 0, ',' :: rest) := by
  unfold intText
  split_ifs with hv
  · have hneg : -((v.natAbs : Nat) : Int) = v := by omega
    have hrun := parseUnsigned_natDigits true _ _ (Nat.lt_succ_self v.natAbs) rest
    rw [if_pos rfl, hneg] at hrun
    simp only [List.cons_append, parseNumber, if_true]
    exact hrun
  · have hpos : ((v.natAbs : Nat) : Int) = v := by omega
    have hfirst : ∃ d tail, natDigits (v.natAbs + 1) v.natAbs = d :: tail ∧ d ≠ '-' := by
      rcases Nat.eq_zero_or_pos v.natAbs with h0 | h0
      · rw [h0, natDigits_zero]
        exact ⟨'0', [], rfl, by decide⟩
      · obtain ⟨d, tail, hd, _, hdig⟩ := natDigits_head _ _ (Nat.lt_succ_self v.natAbs) h0
        exact ⟨d, tail, hd, isDigit_ne_minus d hdig⟩
    obtain ⟨d, tail, hd, hne⟩ := hfirst
    have hrun := parseUnsigned_natDigits false _ _ (Nat.lt_succ_self v.natAbs) rest
    rw [hd] at hrun ⊢
    simp only [List.cons_append, parseNumber, hne, if_false]
    simpa [hpos] using hrun

theorem parseString_quoteChars (cs rest : List Char) :
    parseString (quoteChars cs ++ '"' :: rest) = some (String.mk cs, rest) :=
  parseString_quote (String.mk cs) rest

theorem intText_head (v : Int) :
    ∃ d tail, intText v = d :: tail ∧ (d = '-' ∨ d.isDigit = true) := by
  unfold intText
  split_ifs with hv
  · exact ⟨'-', _, rfl, Or.inl rfl⟩
  · rcases Nat.eq_zero_or_pos v.natAbs with h0 | h0
    · rw [h0, natDigits_zero]
      exact ⟨'0', [], rfl, Or.inr (by decide)⟩
    · obtain ⟨d, tail, hd, _, hdig⟩ := natDigits_head _ _ (Nat.lt_succ_self v.natAbs) h0
      exact ⟨d, tail, hd, Or.inr hdig⟩

theorem parseValue_intText (fuel : Nat) (v : Int) (rest : List Char) :
    parseValue (fuel + 1) (intText v ++ ',' :: rest) = some (Value.num v 0, ',' :: rest) := by
  have hnum := parseNumber_intText v rest
  obtain ⟨d, tail, hd, hdig⟩ := intText_head v
  rw [hd] at hnum ⊢
  have hws : isWs d = false := by
    rcases hdig with h | h
    · rw [h]; decide
    · cases hw : isWs d with
      | false => rfl
      | true =>
        exfalso
        simp only [isWs, Bool.or_eq_true, decide_eq_true_eq] at hw
        rcases hw with ((hw | hw) | hw) | hw <;> (rw [hw] at h; revert h; decide)
  have hne : ∀ x : Char, (x = '-' ∨ x.isDigit = true → False) → d ≠ x := by
    intro x hx hdx
    exact hx (hdx ▸ hdig)
  have h1 : d ≠ '[' := hne _ (by decide)
  have h2 : d ≠ '\x7b' := hne _ (by decide)
  have h3 : d ≠ '"' := hne _ (by decide)
  have h4 : d ≠ 't' := hne _ (by decide)
  have h5 : d ≠ 'f' := hne _ (by decide)
  have h6 : d ≠ 'n' := hne _ (by decide)
  simp only [List.cons_append, parseValue, skipWs, hws, h1, h2, h3, h4, h5, h6, if_false,
    Bool.false_eq_true]
  exact hnum

theorem parseValue_quote (fuel : Nat) (s : String) (rest : List Char) :
    parseValue (fuel + 1) (quote s ++ rest) = some (Value.str s, rest) := by
  have h : parseString (quoteChars s.data ++ '"' :: rest) = some (s, rest) :=
    parseString_quote s rest
  simp only [quote, List.cons_append, List.append_assoc, List.singleton_append, parseValue,
    skipWs]
  simp [isWs, h]

theorem parseMembers_step (fuel : Nat) (key : String) (text : List Char) (v : Value)
    (acc : List (String × Value)) (c : Char) (after : List Char)
    (hv : parseValue fuel (text ++ c :: after) = some (v, c :: after))
    (hc : isWs c = false) :
    parseMembers (fuel + 1) (quote key ++ ':' :: (text ++ c :: after)) acc
      = if c = ',' then parseMembers fuel after (acc ++ [(key, v)])
        else if c = '\x7d' then some (Value.obj (acc ++ [(key, v)]), after)
        else none := by
  have h : parseString (quoteChars key.data ++ '"' :: ':' :: (text ++ c :: after))
      = some (key, ':' :: (text ++ c :: after)) :=
    parseString_quote key (':' :: (text ++ c :: after))
  have hc1 : ¬ (((c = ' ' ∨ c = '\t') ∨ c = '\n') ∨ c = '\r') := by
    simpa [isWs] using hc
  simp only [quote, List.cons_append, List.append_assoc, List.singleton_append, parseMembers,
    skipWs]
  simp [isWs, h, skipWs, hv, hc1]

theorem parseValue_open_object (fuel : Nat) (rest : List Char) :
    parseValue (fuel + 1) ('\x7b' :: '"' :: rest) = parseMembers fuel ('"' :: rest) [] := by
  simp [parseValue, skipWs, isWs]

theorem parseValue_stringifyJoke (fuel : Nat) (j : Joke) (rest : List Char) :
    parseValue (fuel + 5) (stringifyJoke j ++ rest) = some (jokeValue j, rest) := by
  have hid : parseMembers (fuel + 2) (quote "id" ++ ':' :: (quote j.id ++ '\x7d' :: rest))
      [("joke", Value.str j.joke), ("votes", Value.num j.votes 0)]
      = some (jokeValue j, rest) := by
    rw [parseMembers_step (fuel + 1) "id" (quote j.id) (Value.str j.id) _ '\x7d' rest
      (parseValue_quote fuel j.id _) (by decide)]
    simp [jokeValue]
  have hvotes : parseMembers (fuel + 3)
      (quote "votes" ++ ':' :: (intText j.votes ++ ',' ::
        (quote "id" ++ ':' :: (quote j.id ++ '\x7d' :: rest))))
      [("joke", Value.str j.joke)] = some (jokeValue j, rest) := by
    rw [parseMembers_step (fuel + 2) "votes" (intText j.votes) (Value.num j.votes 0) _ ','
      _ (parseValue_intText (fuel + 1) j.votes _) (by decide)]
    simpa using hid
  have hjoke : parseMembers (fuel + 4)
      (quote "joke" ++ ':' :: (quote j.joke ++ ',' :: (quote "votes" ++ ':' ::
        (intText j.votes ++ ',' :: (quote "id" ++ ':' :: (quote j.id ++ '\x7d' :: rest))))))
      [] = some (jokeValue j, rest) := by
    rw [parseMembers_step (fuel + 3) "joke" (quote j.joke) (Value.str j.joke) _ ','
      _ (parseValue_quote (fuel + 2) j.joke _) (by decide)]
    simpa using hvotes
  have hshape : stringifyJoke j ++ rest = '\x7b' :: ('"' :: (quoteChars "joke".toList ++ '"' ::
      ':' :: (quote j.joke ++ ',' :: (quote "votes" ++ ':' ::
        (intText j.votes ++ ',' :: (quote "id" ++ ':' :: (quote j.id ++ '\x7d' :: rest))))))) := by
    simp [stringifyJoke, quote]
  have hopen : quote "joke" ++ ':' :: (quote j.joke ++ ',' :: (quote "votes" ++ ':' ::
        (intText j.votes ++ ',' :: (quote "id" ++ ':' :: (quote j.id ++ '\x7d' :: rest)))))
      = '"' :: (quoteChars "joke".toList ++ '"' ::
      ':' :: (quote j.joke ++ ',' :: (quote "votes" ++ ':' ::
        (intText j.votes ++ ',' :: (quote "id" ++ ':' :: (quote j.id ++ '\x7d' :: rest)))))) := by
    simp [quote]
  rw [hshape, parseValue_open_object]
  rw [hopen] at hjoke
  exact hjoke

theorem stringifyJoke_head (j : Joke) : ∃ tail, stringifyJoke j = '\x7b' :: tail :=
  ⟨_, rfl⟩

theorem stringifyElements_head (j : Joke) (js : List Joke) :
    ∃ tail, stringifyElements (j :: js) = '\x7b' :: tail := by
  cases js with
  | nil => exact ⟨_, rfl⟩
  | cons k ks => exact ⟨_, rfl⟩

theorem length_le_stringifyElements (jokes : List Joke) :
    jokes.length ≤ (stringifyElements jokes).length := by
  induction jokes with
  | nil => simp [stringifyElements]
  | cons j js ih =>
    cases js with
    | nil => simp [stringifyElements, stringifyJoke]
    | cons k ks =>
      simp only [stringifyElements, List.length_append, List.length_cons] at ih ⊢
      omega

theorem parseElements_step (fuel : Nat) (text : List Char) (v : Value) (acc : List Value)
    (c : Char) (after : List Char)
    (hv : parseValue fuel (text ++ c :: after) = some (v, c :: after))
    (hc : isWs c = false) :
    parseElements (fuel + 1) (text ++ c :: after) acc
      = if c = ',' then parseElements fuel after (acc ++ [v])
        else if c = ']' then some (Value.arr (acc ++ [v]), after)
        else none := by
  have hc1 : ¬ (((c = ' ' ∨ c = '\t') ∨ c = '\n') ∨ c = '\r') := by
    simpa [isWs] using hc
  simp only [parseElements, hv, skipWs]
  simp [isWs, hc1]

theorem parseElements_stringifyElements (rest : List Char) (js : List Joke) :
    ∀ (j : Joke) (acc : List Value) (fuel : Nat),
      parseElements (fuel + js.length + 6) (stringifyElements (j :: js) ++ ']' :: rest) acc
        = some (Value.arr (acc ++ (j :: js).map jokeValue), rest) := by
  induction js with
  | nil =>
    intro j acc fuel
    have h := parseValue_stringifyJoke fuel j (']' :: rest)
    have hstep := parseElements_step (fuel + 5) (stringifyJoke j) (jokeValue j) acc ']' rest h
      (by decide)
    simpa [stringifyElements] using hstep
  | cons k ks ih =>
    intro j acc fuel
    have h := parseValue_stringifyJoke (fuel + ks.length + 1) j
      (',' :: (stringifyElements (k :: ks) ++ ']' :: rest))
    have hstep := parseElements_step (fuel + ks.length + 1 + 5) (stringifyJoke j) (jokeValue j)
      acc ',' (stringifyElements (k :: ks) ++ ']' :: rest) h (by decide)
    have hfuel : fuel + (k :: ks).length + 6 = (fuel + ks.length + 1 + 5) + 1 := by
      simp only [List.length_cons]; omega
    have hfuel1 : fuel + ks.length + 1 + 5 = fuel + ks.length + 6 := by omega
    have hshape : stringifyElements (j :: k :: ks) ++ ']' :: rest
        = stringifyJoke j ++ ',' :: (stringifyElements (k :: ks) ++ ']' :: rest) := by
      simp [stringifyElements]
    rw [hfuel, hshape, hstep, if_pos rfl, hfuel1, ih k (acc ++ [jokeValue j]) fuel]
    simp

theorem parseValue_array (rest : List Char) (jokes : List Joke) (fuel : Nat) :
    parseValue (fuel + jokes.length + 6) ('[' :: (stringifyElements jokes ++ ']' :: rest))
      = some (Value.arr (jokes.map jokeValue), rest) := by
  cases jokes with
  | nil => simp [parseValue, skipWs, isWs, stringifyElements]
  | cons j js =>
    obtain ⟨tail, htail⟩ := stringifyElements_head j js
    have h := parseElements_stringifyElements rest js j [] fuel
    have hfuel : fuel + (j :: js).length + 6 = (fuel + js.length + 6) + 1 := by
      simp only [List.length_cons]; omega
    rw [hfuel]
    rw [htail] at h ⊢
    simp only [List.cons_append] at h
    have hws : skipWs ('\x7b' :: (tail ++ ']' :: rest)) = '\x7b' :: (tail ++ ']' :: rest) :=
      skipWs_cons _ (by decide)
    have hopen : skipWs ('[' :: '\x7b' :: (tail ++ ']' :: rest))
        = '[' :: '\x7b' :: (tail ++ ']' :: rest) := skipWs_cons _ (by decide)
    simp only [List.cons_append, parseValue, hopen, hws, h]
    simp

theorem parse_stringify (jokes : List Joke) :
    parse (stringify jokes) = some (Value.arr (jokes.map jokeValue)) := by
  have hlen := length_le_stringifyElements jokes
  obtain ⟨fuel, hfuel⟩ : ∃ fuel, 2 * (stringify jokes).length + 2 = fuel + jokes.length + 6 := by
    refine ⟨2 * (stringify jokes).length + 2 - (jokes.length + 6), ?_⟩
    have : (stringify jokes).length = (stringifyElements jokes).length + 2 := by
      simp [stringify, String.length]
    omega
  have h := parseValue_array [] jokes fuel
  have htext : (stringify jokes).toList = '[' :: (stringifyElements jokes ++ [']']) := rfl
  simp only [parse, hfuel, htext, h, skipWs]
  simp

end JSON
end JokeList

namespace JokeList
namespace JSON

/-! ### The fuel of `parseValue` is enough

Every parser hands back a text no longer than the one it was given, and a value, an
escape or a string literal uses up at least one character; so the result of `parseValue`
no longer depends on the fuel once it exceeds twice the length of the text by two. -/

theorem skipWs_length (cs : List Char) : (skipWs cs).length ≤ cs.length := by
  induction cs with
  | nil => simp [skipWs]
  | cons c cs ih =>
    unfold skipWs
    split_ifs
    · simp only [List.length_cons]; omega
    · exact Nat.le_refl _

theorem skipWs_cons_length {cs rest : List Char} {c : Char} (h : skipWs cs = c :: rest) :
    rest.length + 1 ≤ cs.length := by
  have := skipWs_length cs
  rw [h] at this
  simpa using this

theorem parseHex4_length {cs rest : List Char} {n : Nat} (h : parseHex4 cs = some (n, rest)) :
    rest.length < cs.length := by
  unfold parseHex4 at h
  split at h
  · split at h
    · simp only [Option.some.injEq, Prod.mk.injEq] at h
      rw [← h.2]
      simp only [List.length_cons]; omega
    · exact absurd h (by simp)
  · exact absurd h (by simp)

theorem some_pair_length {c d : Char} {xs rest : List Char} {n : Nat}
    (h : some (d, xs) = some (c, rest)) (hx : xs.length < n) : rest.length < n := by
  simp only [Option.some.injEq, Prod.mk.injEq] at h
  rw [← h.2]
  exact hx

theorem parseEscape_length {cs rest : List Char} {c : Char}
    (h : parseEscape cs = some (c, rest)) : rest.length < cs.length := by
  cases cs with
  | nil => exact absurd h (by simp [parseEscape])
  | cons x xs =>
    rw [parseEscape] at h
    have hxs : xs.length < (x :: xs).length := Nat.lt_succ_self _
    by_cases h1 : x = '"'
    · rw [if_pos h1] at h; exact some_pair_length h hxs
    rw [if_neg h1] at h
    by_cases h2 : x = '\\'
    · rw [if_pos h2] at h; exact some_pair_length h hxs
    rw [if_neg h2] at h
    by_cases h3 : x = '/'
    · rw [if_pos h3] at h; exact some_pair_length h hxs
    rw [if_neg h3] at h
    by_cases h4 : x = 'b'
    · rw [if_pos h4] at h; exact some_pair_length h hxs
    rw [if_neg h4] at h
    by_cases h5 : x = 'f'
    · rw [if_pos h5] at h; exact some_pair_length h hxs
    rw [if_neg h5] at h
    by_cases h6 : x = 'n'
    · rw [if_pos h6] at h; exact some_pair_length h hxs
    rw [if_neg h6] at h
    by_cases h7 : x = 'r'
    · rw [if_pos h7] at h; exact some_pair_length h hxs
    rw [if_neg h7] at h
    by_cases h8 : x = 't'
    · rw [if_pos h8] at h; exact some_pair_length h hxs
    rw [if_neg h8] at h
    by_cases h9 : x = 'u'
    · rw [if_pos h9] at h
      cases hhex : parseHex4 xs with
      | none => rw [hhex] at h; exact absurd h (by simp)
      | some p =>
        obtain ⟨hi, rest1⟩ := p
        rw [hhex] at h
        have hr1 : rest1.length < (x :: xs).length :=
          Nat.lt_trans (parseHex4_length hhex) hxs
        simp only at h
        by_cases hs : 55296 ≤ hi ∧ hi ≤ 56319
        · rw [if_pos hs] at h
          split at h
          · rename_i rest2
            cases hhex2 : parseHex4 rest2 with
            | none => rw [hhex2] at h; exact some_pair_length h hr1
            | some p2 =>
              obtain ⟨lo, rest3⟩ := p2
              rw [hhex2] at h
              simp only at h
              have hr3 : rest3.length < (x :: xs).length := by
                have := parseHex4_length hhex2
                simp only [List.length_cons] at hr1 this ⊢
                omega
              by_cases hl : 56320 ≤ lo ∧ lo ≤ 57343
              · rw [if_pos hl] at h; exact some_pair_length h hr3
              · rw [if_neg hl] at h; exact some_pair_length h hr1
          · exact some_pair_length h hr1
        · rw [if_neg hs] at h
          by_cases hl : 56320 ≤ hi ∧ hi ≤ 57343
          · rw [if_pos hl] at h; exact some_pair_length h hr1
          · rw [if_neg hl] at h; exact some_pair_length h hr1
    · rw [if_neg h9] at h; exact absurd h (by simp)

theorem parseChars_length : ∀ (fuel : Nat) (cs acc : List Char) (s : String) (rest : List Char),
    parseChars fuel cs acc = some (s, rest) → rest.length < cs.length := by
  intro fuel
  induction fuel with
  | zero => intro cs acc s rest h; exact absurd h (by simp [parseChars])
  | succ fuel ih =>
    intro cs acc s rest h
    cases cs with
    | nil => exact absurd h (by simp [parseChars])
    | cons c cs =>
      rw [parseChars] at h
      by_cases h1 : c = '"'
      · rw [if_pos h1] at h
        simp only [Option.some.injEq, Prod.mk.injEq] at h
        rw [← h.2]
        exact Nat.lt_succ_self _
      rw [if_neg h1] at h
      by_cases h2 : c = '\\'
      · rw [if_pos h2] at h
        cases hesc : parseEscape cs with
        | none => rw [hesc] at h; exact absurd h (by simp)
        | some p =>
          obtain ⟨ch, rest1⟩ := p
          rw [hesc] at h
          have h3 := parseEscape_length hesc
          have h4 := ih _ _ _ _ h
          simp only [List.length_cons]; omega
      rw [if_neg h2] at h
      by_cases h3 : c.toNat < 32
      · rw [if_pos h3] at h; exact absurd h (by simp)
      · rw [if_neg h3] at h
        have h4 := ih _ _ _ _ h
        simp only [List.length_cons]; omega

theorem parseString_length {cs rest : List Char} {s : String}
    (h : parseString cs = some (s, rest)) : rest.length < cs.length :=
  parseChars_length _ _ _ _ _ h

theorem dropWhile_length (p : Char → Bool) (cs : List Char) :
    (cs.dropWhile p).length ≤ cs.length := by
  induction cs with
  | nil => simp
  | cons c cs ih =>
    rw [List.dropWhile_cons]
    split_ifs
    · simp only [List.length_cons]; omega
    · exact Nat.le_refl _

theorem parseIntDigits_length {cs rest ds : List Char}
    (h : parseIntDigits cs = some (ds, rest)) : rest.length < cs.length := by
  cases cs with
  | nil => exact absurd h (by simp [parseIntDigits])
  | cons c cs =>
    simp only [parseIntDigits] at h
    split_ifs at h
    · simp only [Option.some.injEq, Prod.mk.injEq] at h
      rw [← h.2]; simp
    · simp only [Option.some.injEq, Prod.mk.injEq] at h
      rw [← h.2]
      have := dropWhile_length Char.isDigit cs
      simp only [List.length_cons]; omega

theorem parseFraction_length {cs rest ds : List Char}
    (h : parseFraction cs = some (ds, rest)) : rest.length ≤ cs.length := by
  cases cs with
  | nil =>
    simp only [parseFraction, Option.some.injEq, Prod.mk.injEq] at h
    rw [← h.2]
  | cons c cs =>
    simp only [parseFraction] at h
    split_ifs at h
    · simp only [Option.some.injEq, Prod.mk.injEq] at h
      rw [← h.2]
      have := dropWhile_length Char.isDigit cs
      simp only [List.length_cons]; omega
    · simp only [Option.some.injEq, Prod.mk.injEq] at h
      rw [← h.2]

theorem parseExponentDigits_length {negative : Bool} {cs rest : List Char} {e : Int}
    (h : parseExponentDigits negative cs = some (e, rest)) : rest.length ≤ cs.length := by
  unfold parseExponentDigits at h
  by_cases hd : cs.takeWhile Char.isDigit = []
  · rw [if_pos hd] at h; exact absurd h (by simp)
  · rw [if_neg hd] at h
    simp only [Option.some.injEq, Prod.mk.injEq] at h
    rw [← h.2]
    exact dropWhile_length Char.isDigit cs

theorem parseExponent_length {cs rest : List Char} {e : Int}
    (h : parseExponent cs = some (e, rest)) : rest.length ≤ cs.length := by
  cases cs with
  | nil =>
    simp only [parseExponent, Option.some.injEq, Prod.mk.injEq] at h
    rw [← h.2]
  | cons c cs =>
    simp only [parseExponent] at h
    split_ifs at h
    · split at h
      · exact absurd h (by simp)
      · split_ifs at h
        · have := parseExponentDigits_length h
          simp only [List.length_cons]; omega
        · have := parseExponentDigits_length h
          simp only [List.length_cons]; omega
        · have := parseExponentDigits_length h
          simp only [List.length_cons] at this ⊢; omega
    · simp only [Option.some.injEq, Prod.mk.injEq] at h
      rw [← h.2]

theorem parseUnsigned_length {negative : Bool} {cs rest : List Char} {v : Value}
    (h : parseUnsigned negative cs = some (v, rest)) : rest.length < cs.length := by
  unfold parseUnsigned at h
  split at h
  · exact absurd h (by simp)
  · rename_i intDs cs1 hint
    split at h
    · exact absurd h (by simp)
    · rename_i fracDs cs2 hfrac
      split at h
      · exact absurd h (by simp)
      · rename_i e cs3 hexp
        simp only [Option.some.injEq, Prod.mk.injEq] at h
        rw [← h.2]
        have h1 := parseIntDigits_length hint
        have h2 := parseFraction_length hfrac
        have h3 := parseExponent_length hexp
        omega

theorem parseNumber_length {cs rest : List Char} {v : Value}
    (h : parseNumber cs = some (v, rest)) : rest.length < cs.length := by
  cases cs with
  | nil => exact absurd h (by simp [parseNumber])
  | cons c cs =>
    simp only [parseNumber] at h
    split_ifs at h
    · have := parseUnsigned_length h
      simp only [List.length_cons]; omega
    · exact parseUnsigned_length h

theorem dropWord_length : ∀ (word cs rest : List Char),
    dropWord word cs = some rest → rest.length ≤ cs.length := by
  intro word
  induction word with
  | nil =>
    intro cs rest h
    simp only [dropWord, Option.some.injEq] at h
    rw [← h]
  | cons w ws ih =>
    intro cs rest h
    cases cs with
    | nil => exact absurd h (by simp [dropWord])
    | cons c cs =>
      simp only [dropWord] at h
      split_ifs at h
      have := ih _ _ h
      simp only [List.length_cons]; omega

theorem map_some_length {f : List Char → Value × List Char} {o : Option (List Char)}
    {v : Value} {rest : List Char} {n : Nat}
    (hf : ∀ r, (f r).2 = r) (h : o.map f = some (v, rest))
    (ho : ∀ r, o = some r → r.length < n) : rest.length < n := by
  cases o with
  | none => exact absurd h (by simp)
  | some r =>
    simp only [Option.map_some', Option.some.injEq] at h
    have := hf r
    rw [h] at this
    simp only at this
    rw [this]
    exact ho r rfl

theorem parse_length (fuel : Nat) :
    (∀ (cs : List Char) (v : Value) (rest : List Char),
      parseValue fuel cs = some (v, rest) → rest.length < cs.length) ∧
    (∀ (cs : List Char) (acc : List Value) (v : Value) (rest : List Char),
      parseElements fuel cs acc = some (v, rest) → rest.length < cs.length) ∧
    (∀ (cs : List Char) (acc : List (String × Value)) (v : Value) (rest : List Char),
      parseMembers fuel cs acc = some (v, rest) → rest.length < cs.length) := by
  induction fuel with
  | zero =>
    refine ⟨?_, ?_, ?_⟩
    · intro cs v rest h; exact absurd h (by simp [parseValue])
    · intro cs acc v rest h; exact absurd h (by simp [parseElements])
    · intro cs acc v rest h; exact absurd h (by simp [parseMembers])
  | succ fuel ih =>
    obtain ⟨ihV, ihE, ihM⟩ := ih
    refine ⟨?_, ?_, ?_⟩
    · intro cs v rest h
      rw [parseValue] at h
      cases hs : skipWs cs with
      | nil => rw [hs] at h; exact absurd h (by simp)
      | cons c tail =>
        rw [hs] at h
        simp only at h
        have hlen := skipWs_cons_length hs
        by_cases h1 : c = '['
        · rw [if_pos h1] at h
          cases hs2 : skipWs tail with
          | nil => rw [hs2] at h; exact absurd h (by simp)
          | cons c1 tail1 =>
            rw [hs2] at h
            simp only at h
            have hlen2 := skipWs_cons_length hs2
            by_cases h2 : c1 = ']'
            · rw [if_pos h2] at h
              simp only [Option.some.injEq, Prod.mk.injEq] at h
              rw [← h.2]; omega
            · rw [if_neg h2] at h
              have := ihE _ _ _ _ h
              omega
        rw [if_neg h1] at h
        by_cases h2 : c = '\x7b'
        · rw [if_pos h2] at h
          cases hs2 : skipWs tail with
          | nil => rw [hs2] at h; exact absurd h (by simp)
          | cons c1 tail1 =>
            rw [hs2] at h
            simp only at h
            have hlen2 := skipWs_cons_length hs2
            by_cases h3 : c1 = '\x7d'
            · rw [if_pos h3] at h
              simp only [Option.some.injEq, Prod.mk.injEq] at h
              rw [← h.2]; omega
            · rw [if_neg h3] at h
              have := ihM _ _ _ _ h
              omega
        rw [if_neg h2] at h
        by_cases h3 : c = '"'
        · rw [if_pos h3] at h
          cases hstr : parseString tail with
          | none => rw [hstr] at h; exact absurd h (by simp)
          | some p =>
            obtain ⟨s, tail1⟩ := p
            rw [hstr] at h
            simp only [Option.some.injEq, Prod.mk.injEq] at h
            have := parseString_length hstr
            rw [← h.2]; omega
        rw [if_neg h3] at h
        by_cases h4 : c = 't'
        · rw [if_pos h4] at h
          exact map_some_length (fun _ => rfl) h fun r hr => by
            have := dropWord_length _ _ _ hr
            omega
        rw [if_neg h4] at h
        by_cases h5 : c = 'f'
        · rw [if_pos h5] at h
          exact map_some_length (fun _ => rfl) h fun r hr => by
            have := dropWord_length _ _ _ hr
            omega
        rw [if_neg h5] at h
        by_cases h6 : c = 'n'
        · rw [if_pos h6] at h
          exact map_some_length (fun _ => rfl) h fun r hr => by
            have := dropWord_length _ _ _ hr
            omega
        rw [if_neg h6] at h
        have := parseNumber_length h
        simp only [List.length_cons] at this
        omega
    · intro cs acc v rest h
      rw [parseElements] at h
      cases hv : parseValue fuel cs with
      | none => rw [hv] at h; exact absurd h (by simp)
      | some p =>
        obtain ⟨v1, tail⟩ := p
        rw [hv] at h
        simp only at h
        have hlen := ihV _ _ _ hv
        cases hs : skipWs tail with
        | nil => rw [hs] at h; exact absurd h (by simp)
        | cons c tail1 =>
          rw [hs] at h
          simp only at h
          have hlen2 := skipWs_cons_length hs
          by_cases h1 : c = ','
          · rw [if_pos h1] at h
            have := ihE _ _ _ _ h
            omega
          rw [if_neg h1] at h
          by_cases h2 : c = ']'
          · rw [if_pos h2] at h
            simp only [Option.some.injEq, Prod.mk.injEq] at h
            rw [← h.2]; omega
          · rw [if_neg h2] at h; exact absurd h (by simp)
    · intro cs acc v rest h
      rw [parseMembers] at h
      cases hs : skipWs cs with
      | nil => rw [hs] at h; exact absurd h (by simp)
      | cons q tail =>
        rw [hs] at h
        simp only at h
        have hlen := skipWs_cons_length hs
        by_cases h1 : q = '"'
        · rw [if_pos h1] at h
          cases hstr : parseString tail with
          | none => rw [hstr] at h; exact absurd h (by simp)
          | some p =>
            obtain ⟨key, tail1⟩ := p
            rw [hstr] at h
            simp only at h
            have hlen1 := parseString_length hstr
            cases hs2 : skipWs tail1 with
            | nil => rw [hs2] at h; exact absurd h (by simp)
            | cons colon tail2 =>
              rw [hs2] at h
              simp only at h
              have hlen2 := skipWs_cons_length hs2
              by_cases h2 : colon = ':'
              · rw [if_pos h2] at h
                cases hv : parseValue fuel tail2 with
                | none => rw [hv] at h; exact absurd h (by simp)
                | some p2 =>
                  obtain ⟨v1, tail3⟩ := p2
                  rw [hv] at h
                  simp only at h
                  have hlen3 := ihV _ _ _ hv
                  cases hs3 : skipWs tail3 with
                  | nil => rw [hs3] at h; exact absurd h (by simp)
                  | cons c tail4 =>
                    rw [hs3] at h
                    simp only at h
                    have hlen4 := skipWs_cons_length hs3
                    by_cases h3 : c = ','
                    · rw [if_pos h3] at h
                      have := ihM _ _ _ _ h
                      omega
                    rw [if_neg h3] at h
                    by_cases h4 : c = '\x7d'
                    · rw [if_pos h4] at h
                      simp only [Option.some.injEq, Prod.mk.injEq] at h
                      rw [← h.2]; omega
                    · rw [if_neg h4] at h; exact absurd h (by simp)
              · rw [if_neg h2] at h; exact absurd h (by simp)
        · rw [if_neg h1] at h; exact absurd h (by simp)

theorem parse_fuel_enough (fuel : Nat) :
    (∀ (cs : List Char) (g : Nat), 2 * cs.length + 2 ≤ fuel → fuel ≤ g →
      parseValue g cs = parseValue fuel cs) ∧
    (∀ (cs : List Char) (acc : List Value) (g : Nat), 2 * cs.length + 3 ≤ fuel → fuel ≤ g →
      parseElements g cs acc = parseElements fuel cs acc) ∧
    (∀ (cs : List Char) (acc : List (String × Value)) (g : Nat),
      2 * cs.length + 3 ≤ fuel → fuel ≤ g →
      parseMembers g cs acc = parseMembers fuel cs acc) := by
  induction fuel with
  | zero =>
    refine ⟨?_, ?_, ?_⟩
    · intro cs g hb; omega
    · intro cs acc g hb; omega
    · intro cs acc g hb; omega
  | succ fuel ih =>
    obtain ⟨ihV, ihE, ihM⟩ := ih
    refine ⟨?_, ?_, ?_⟩
    · intro cs g1 hb hg1
      obtain ⟨g, rfl⟩ : ∃ g, g1 = g + 1 := ⟨g1 - 1, by omega⟩
      have hg : fuel ≤ g := by omega
      rw [parseValue, parseValue]
      cases hs : skipWs cs with
      | nil => rfl
      | cons c tail =>
        simp only
        have hlen := skipWs_cons_length hs
        by_cases h1 : c = '['
        · simp only [if_pos h1]
          cases hs2 : skipWs tail with
          | nil => rfl
          | cons c1 tail1 =>
            simp only
            by_cases h2 : c1 = ']'
            · simp only [if_pos h2]
            · simp only [if_neg h2]
              exact ihE tail [] g (by omega) hg
        simp only [if_neg h1]
        by_cases h2 : c = '\x7b'
        · simp only [if_pos h2]
          cases hs2 : skipWs tail with
          | nil => rfl
          | cons c1 tail1 =>
            simp only
            by_cases h3 : c1 = '\x7d'
            · simp only [if_pos h3]
            · simp only [if_neg h3]
              exact ihM tail [] g (by omega) hg
        simp only [if_neg h2]
    · intro cs acc g1 hb hg1
      obtain ⟨g, rfl⟩ : ∃ g, g1 = g + 1 := ⟨g1 - 1, by omega⟩
      have hg : fuel ≤ g := by omega
      rw [parseElements, parseElements, ihV cs g (by omega) hg]
      cases hv : parseValue fuel cs with
      | none => rfl
      | some p =>
        obtain ⟨v1, tail⟩ := p
        simp only
        have hlen := (parse_length fuel).1 _ _ _ hv
        cases hs : skipWs tail with
        | nil => rfl
        | cons c tail1 =>
          simp only
          have hlen2 := skipWs_cons_length hs
          by_cases h1 : c = ','
          · simp only [if_pos h1]
            exact ihE tail1 _ g (by omega) hg
          simp only [if_neg h1]
    · intro cs acc g1 hb hg1
      obtain ⟨g, rfl⟩ : ∃ g, g1 = g + 1 := ⟨g1 - 1, by omega⟩
      have hg : fuel ≤ g := by omega
      rw [parseMembers, parseMembers]
      cases hs : skipWs cs with
      | nil => rfl
      | cons q tail =>
        simp only
        have hlen := skipWs_cons_length hs
        by_cases h1 : q = '"'
        · simp only [if_pos h1]
          cases hstr : parseString tail with
          | none => rfl
          | some p =>
            obtain ⟨key, tail1⟩ := p
            simp only
            have hlen1 := parseString_length hstr
            cases hs2 : skipWs tail1 with
            | nil => rfl
            | cons colon tail2 =>
              simp only
              have hlen2 := skipWs_cons_length hs2
              by_cases h2 : colon = ':'
              · simp only [if_pos h2]
                rw [ihV tail2 g (by omega) hg]
                cases hv : parseValue fuel tail2 with
                | none => rfl
                | some p2 =>
                  obtain ⟨v1, tail3⟩ := p2
                  simp only
                  have hlen3 := (parse_length fuel).1 _ _ _ hv
                  cases hs3 : skipWs tail3 with
                  | nil => rfl
                  | cons c tail4 =>
                    simp only
                    have hlen4 := skipWs_cons_length hs3
                    by_cases h3 : c = ','
                    · simp only [if_pos h3]
                      exact ihM tail4 _ g (by omega) hg
                    simp only [if_neg h3]
              · simp only [if_neg h2]
        · simp only [if_neg h1]

/-- The result of `JSON.parse` does not depend on the fuel it gives `parseValue`: any
larger amount gives the same value or the same `SyntaxError`. -/
theorem parse_fuel (text : String) (fuel : Nat) (h : 2 * text.length + 2 ≤ fuel) :
    parseValue fuel text.toList = parseValue (2 * text.length + 2) text.toList :=
  (parse_fuel_enough (2 * text.length + 2)).1 text.toList fuel (Nat.le_refl _) h

end JSON
end JokeList

namespace JokeList

theorem decodeJoke_jokeValue (j : Joke) : decodeJoke (JSON.jokeValue j) = some j := by
  simp [decodeJoke, JSON.jokeValue, JSON.getProperty, List.lookup, JSON.Value.toInt?]

theorem decodeJokes_jokeValue (jokes : List Joke) :
    decodeJokes (jokes.map JSON.jokeValue) = some jokes := by
  induction jokes with
  | nil => rfl
  | cons j js ih => simp [decodeJokes, decodeJoke_jokeValue, ih]

theorem any_isNull_jokeValue (jokes : List Joke) :
    (jokes.map JSON.jokeValue).any isNull = false := by
  induction jokes with
  | nil => rfl
  | cons j js ih => simp [JSON.jokeValue, isNull, ih]

theorem stringify_ne_empty (jokes : List Joke) : JSON.stringify jokes ≠ "" := by
  intro h
  have := congrArg String.length h
  simp [JSON.stringify, String.length] at this

theorem constructor_stringify (numJokesToGet : Nat) (jokes : List Joke) :
    constructor numJokesToGet (some (JSON.stringify jokes)) = Except.ok
      { state := { jokes := jokes, loading := false },
        seenJokes := jokes.map fun j => j.id,
        numJokesToGet := numJokesToGet,
        storage := some (JSON.stringify jokes),
        alerts := [] } := by
  simp [constructor, storedText, stringify_ne_empty, JSON.parse_stringify,
    any_isNull_jokeValue, decodeJokes_jokeValue]

end JokeList

namespace JokeList

/-! ## The claims -/

/-- C1 fails at two inputs. A record read from storage with `votes` `2 ^ 53`, voted up by
`1`, keeps `votes` `2 ^ 53`: the sum of line 107 is a sum of doubles, and `2 ^ 53 + 1` is
not one. And a vote that raises the second of two records with equal votes leaves it
first: `render` sorts the list the update installs before the callback persists it, so
the order is not kept. -/
theorem handleVote_rounds_and_render_reorders :
    (∃ c : Component,
      constructor 1
          (some "[\x7b\"joke\":\"x\",\"votes\":9007199254740992,\"id\":\"a\"\x7d]")
        = Except.ok c ∧
      c.state = { jokes := [{ joke := "x", votes := 2 ^ 53, id := "a" }], loading := false } ∧
      handleVote "a" 1 c.state = some c.state) ∧
    (∃ c0 c1 : Component,
      mount 1
          (some (JSON.stringify
            [{ joke := "x", votes := 1, id := "a" }, { joke := "y", votes := 1, id := "b" }])) []
        = Except.ok (some c0) ∧
      c0.state
        = { jokes := [{ joke := "x", votes := 1, id := "a" }, { joke := "y", votes := 1, id := "b" }],
            loading := false } ∧
      step c0 (Event.vote "b" 1) = some c1 ∧
      c1.state.jokes
        = [{ joke := "y", votes := 2, id := "b" }, { joke := "x", votes := 1, id := "a" }] ∧
      c1.storage
        = some (JSON.stringify
            [{ joke := "y", votes := 2, id := "b" }, { joke := "x", votes := 1, id := "a" }])) :=
  ⟨⟨_, rfl, rfl, by decide⟩, ⟨_, _, rfl, rfl, rfl, by decide, by decide⟩⟩

/-- C1, amended: for every list, identifier and integer `delta`, the state update of
`handleVote(id, delta)` yields a list of the same length and order in which a record whose
`id` is `id` has for `votes` the JavaScript sum `votes + delta`, which is exactly
`votes + delta` whenever that is at most `2 ^ 53` in magnitude, with its `joke` and `id`
unchanged, and every other record is the one it was; when `id` occurs exactly once only
that record changes, and when it does not occur the state is unchanged. The update has a
value exactly when every such sum is finite. Once React has rendered and run the callback,
the list in the state holds those same records, sorted by `render` when not loading, and
the stored item is its text. -/
theorem handleVote_spec (st : State) (id : String) (delta : Int) :
    (∀ st1 : State, handleVote id delta st = some st1 →
      st1.loading = st.loading ∧
      st1.jokes.length = st.jokes.length ∧
      (∀ (i : Nat) (j : Joke), st.jokes[i]? = some j →
        ∃ j1, st1.jokes[i]? = some j1 ∧ j1.id = j.id ∧ j1.joke = j.joke ∧
          (j.id = id → addNumber j.votes delta = some j1.votes ∧
            ((j.votes + delta).natAbs ≤ 2 ^ 53 → j1.votes = j.votes + delta)) ∧
          (j.id ≠ id → j1 = j)) ∧
      (∀ (pre post : List Joke) (j : Joke), st.jokes = pre ++ j :: post → j.id = id →
        (∀ k ∈ pre ++ post, k.id ≠ id) →
        ∃ votes, addNumber j.votes delta = some votes ∧
          st1.jokes = pre ++ { j with votes := votes } :: post)) ∧
    ((handleVote id delta st).isSome = true ↔
      ∀ j ∈ st.jokes, j.id = id → (addNumber j.votes delta).isSome = true) ∧
    ((∀ j ∈ st.jokes, j.id = id → (j.votes + delta).natAbs ≤ 2 ^ 53) →
      handleVote id delta st = some
        { st with
          jokes := st.jokes.map fun j =>
            if j.id = id then { j with votes := j.votes + delta } else j }) ∧
    ((∀ k ∈ st.jokes, k.id ≠ id) → handleVote id delta st = some st) ∧
    (∀ (c : Component) (st1 : State), c.state = st → handleVote id delta st = some st1 →
      ∃ c1, step c (Event.vote id delta) = some c1 ∧
        c1.state.jokes.Perm st1.jokes ∧
        (st.loading = false → c1.state.jokes = (renderJokes st1).1.jokes) ∧
        c1.storage = some (JSON.stringify c1.state.jokes)) := by
  refine ⟨?_, ?_, ?_, ?_, ?_⟩
  · intro st1 h
    obtain ⟨jokes, hmap, rfl⟩ := handleVote_some h
    refine ⟨rfl, mapJokes_length hmap, ?_, ?_⟩
    · intro i j hj
      obtain ⟨j1, hj1, hvote⟩ := mapJokes_getElem? hmap hj
      obtain ⟨hid, hjoke, hsum, hother⟩ := voteOn_spec hvote
      refine ⟨j1, hj1, hid, hjoke, fun he => ⟨hsum he, fun hle => ?_⟩, hother⟩
      have := hsum he
      rw [addNumber_of_le _ _ hle] at this
      exact (Option.some.inj this).symm
    · intro pre post j hst hj hothers
      rw [hst] at hmap
      obtain ⟨pre1, tail1, rfl, hpre, htail⟩ := mapJokes_append hmap
      obtain ⟨j1, post1, rfl, hj1, hpost⟩ := mapJokes_cons htail
      have hpre1 := mapJokes_fixed hpre fun k hk =>
        voteOn_of_ne delta (hothers k (List.mem_append_left post hk))
      have hpost1 := mapJokes_fixed hpost fun k hk =>
        voteOn_of_ne delta (hothers k (List.mem_append_right pre hk))
      rw [hpre1, hpost1]
      unfold voteOn at hj1
      rw [if_pos hj] at hj1
      cases hadd : addNumber j.votes delta with
      | none => rw [hadd] at hj1; exact absurd hj1 (by simp)
      | some votes =>
        rw [hadd] at hj1
        simp only [Option.some.injEq] at hj1
        exact ⟨votes, rfl, by rw [← hj1]⟩
  · rw [handleVote_isSome, mapJokes_isSome]
    exact forall₂_congr fun j _ => voteOn_isSome id delta j
  · intro hsafe
    have hmap := mapJokes_eq_map (voteOn id delta)
      (fun j => if j.id = id then { j with votes := j.votes + delta } else j) st.jokes
      (by
        intro j hj
        by_cases hid : j.id = id
        · simp [voteOn, hid, addNumber_of_le _ _ (hsafe j hj hid)]
        · simp [voteOn, hid])
    simp only [handleVote, hmap]
  · intro hnone
    have hmap := mapJokes_of_fixed (voteOn id delta) st.jokes
      fun k hk => voteOn_of_ne delta (hnone k hk)
    simp only [handleVote, hmap]
  · intro c st1 hst h
    subst hst
    refine ⟨commit { c with state := st1 } true, by simp only [step, h], ?_, ?_, rfl⟩
    · simp only [commit, persistJokes, rerender, render, renderJokes, if_true]
      split_ifs
      · exact List.Perm.refl _
      · exact sortJokes_perm _
    · intro hl
      obtain ⟨jokes, _, rfl⟩ := handleVote_some h
      simp [commit, persistJokes, rerender, render, hl]

/-- The statement of C1, amended, at a list of three records, the second of which is
voted up. -/
theorem handleVote_spec_witness :
    handleVote "b" 1
        { jokes := [{ joke := "x", votes := 2, id := "a" }, { joke := "y", votes := -1, id := "b" },
            { joke := "z", votes := 0, id := "c" }],
          loading := false }
      = some
        { jokes := [{ joke := "x", votes := 2, id := "a" }, { joke := "y", votes := 0, id := "b" },
            { joke := "z", votes := 0, id := "c" }],
          loading := false } :=
  (handleVote_spec _ "b" 1).2.2.1 (by decide)

/-- C2, at the inputs where the claim fails. With an empty list, an empty `seenJokes`
and `numJokesToGet = 2`, two responses carrying the same id are both accepted: the cycle
ends successfully, the list has grown by two and `loading` is false, but the two new
records share their id. With `numJokesToGet = 1` and the list a first cycle has left (one
record, `seenJokes` still empty), a response with that record's id is accepted: the new
record's id was in the list before the cycle. `seenJokes` is only read, never added to. -/
theorem getNewJokes_accepts_same_id_twice :
    getNewJokes
        { state := { jokes := [], loading := true }, seenJokes := [], numJokesToGet := 2,
          storage := none, alerts := [] }
        [ApiResult.ok { id := "a", joke := "x" }, ApiResult.ok { id := "a", joke := "x" }]
      = some
        { comp :=
            { state :=
                { jokes :=
                    [{ joke := "x", votes := 0, id := "a" }, { joke := "x", votes := 0, id := "a" }],
                  loading := false },
              seenJokes := [], numJokesToGet := 2, storage := none, alerts := [] },
          callback := true,
          rest := [] } ∧
    ¬ (([{ joke := "x", votes := 0, id := "a" }, { joke := "x", votes := 0, id := "a" }] :
        List Joke).map fun j => j.id).Nodup ∧
    getNewJokes
        { state := { jokes := [{ joke := "x", votes := 0, id := "a" }], loading := true },
          seenJokes := [], numJokesToGet := 1,
          storage := some (JSON.stringify [{ joke := "x", votes := 0, id := "a" }]),
          alerts := [] }
        [ApiResult.ok { id := "a", joke := "x" }]
      = some
        { comp :=
            { state :=
                { jokes :=
                    [{ joke := "x", votes := 0, id := "a" }, { joke := "x", votes := 0, id := "a" }],
                  loading := false },
              seenJokes := [], numJokesToGet := 1,
              storage := some (JSON.stringify [{ joke := "x", votes := 0, id := "a" }]),
              alerts := [] },
          callback := true,
          rest := [] } :=
  ⟨by decide, by decide, by decide⟩

/-- C3, at the input where the claim fails: the page loads with nothing stored (the list
and the dedup set are empty) and its first cycle brings the joke `a`; the fetch button is
clicked and the response is `a` again. The list then holds the id `a` twice, since the
first cycle left `seenJokes` empty. -/
theorem ids_repeat_after_second_cycle :
    ∃ c1 c2 : Component,
      mount 1 none [ApiResult.ok { id := "a", joke := "x" }] = Except.ok (some c1) ∧
      (c1.state.jokes.map fun j => j.id) = ["a"] ∧
      c1.seenJokes = [] ∧
      run c1 [Event.click [ApiResult.ok { id := "a", joke := "x" }]] = some c2 ∧
      (c2.state.jokes.map fun j => j.id) = ["a", "a"] ∧
      ¬ (c2.state.jokes.map fun j => j.id).Nodup :=
  ⟨_, _, rfl, rfl, rfl, rfl, rfl, by decide⟩

/-- C4: when a request fails after successful responses of which fewer than
`numJokesToGet` were accepted, `getNewJokes` ends with `loading` false, the list, the dedup
set and the stored item as they were before the cycle, no callback that would write the
item, exactly one more alert, carrying that error, and every result after the failed one
never asked for. React's render on that update leaves a list that was in display order as
it was. -/
theorem getNewJokes_failure (c : Component) (pre : List JokeData) (err : String)
    (post : List ApiResult)
    (h : (pre.filter fun d => d.id ∉ c.seenJokes).length < c.numJokesToGet) :
    ∃ e : CycleEnd,
      getNewJokes c (pre.map ApiResult.ok ++ ApiResult.error err :: post) = some e ∧
      e.comp.state.loading = false ∧
      e.comp.state.jokes = c.state.jokes ∧
      e.comp.seenJokes = c.seenJokes ∧
      e.comp.storage = c.storage ∧
      e.callback = false ∧
      (commit e.comp e.callback).storage = c.storage ∧
      e.comp.alerts = c.alerts ++ [err] ∧
      (commit e.comp e.callback).alerts = c.alerts ++ [err] ∧
      (commit e.comp e.callback).state.loading = false ∧
      (c.state.jokes.Pairwise (fun a b => b.votes ≤ a.votes) →
        (commit e.comp e.callback).state.jokes = c.state.jokes) ∧
      e.rest = post := by
  have hrun := fetchLoop_threw c.seenJokes c.numJokesToGet err post pre []
    (by simpa [fresh] using h)
  refine ⟨⟨{ c with alerts := c.alerts ++ [err], state := { c.state with loading := false } },
      false, post⟩,
    by simp only [getNewJokes, hrun], rfl, rfl, rfl, rfl, rfl, ?_, rfl, ?_, ?_, ?_, rfl⟩
  · simp [commit, rerender, render, renderJokes]
  · simp [commit, rerender, render, renderJokes]
  · simp [commit, rerender, render, renderJokes]
  · intro hsorted
    simp [commit, rerender, render, renderJokes, sortJokes_of_sorted hsorted]

/-- The statement of C4 at a cycle asking for two jokes: one response is skipped, one is
accepted, then the request fails. -/
theorem getNewJokes_failure_witness :
    ∃ e : CycleEnd,
      getNewJokes
          { state := { jokes := [{ joke := "old", votes := 3, id := "s" }], loading := true },
            seenJokes := ["s"], numJokesToGet := 2, storage := some "kept", alerts := [] }
          [ApiResult.ok { id := "s", joke := "old" }, ApiResult.ok { id := "a", joke := "new" },
            ApiResult.error "Network Error", ApiResult.ok { id := "b", joke := "late" }]
        = some e ∧
      e.comp.state = { jokes := [{ joke := "old", votes := 3, id := "s" }], loading := false } ∧
      e.comp.storage = some "kept" ∧
      e.callback = false ∧
      e.comp.alerts = ["Network Error"] ∧
      e.rest = [ApiResult.ok { id := "b", joke := "late" }] := by
  obtain ⟨e, hrun, hl, hj, _, hs, hc, _, ha, _, _, _, hr⟩ :=
    getNewJokes_failure
      { state := { jokes := [{ joke := "old", votes := 3, id := "s" }], loading := true },
        seenJokes := ["s"], numJokesToGet := 2, storage := some "kept", alerts := [] }
      [{ id := "s", joke := "old" }, { id := "a", joke := "new" }] "Network Error"
      [ApiResult.ok { id := "b", joke := "late" }] (by decide)
  refine ⟨e, hrun, ?_, hs, hc, ha, hr⟩
  cases hst : e.comp.state with
  | mk jokes loading =>
    rw [hst] at hl hj
    simp only at hl hj
    rw [hl, hj]

/-- C5 fails at the stored text that is a lone opening brace: it does not parse as JSON,
and the constructor throws the `SyntaxError` of `JSON.parse`, so that the page load gives
no list and starts no fetch cycle. -/
theorem constructor_throws_on_malformed :
    JSON.parse "\x7b" = none ∧
    constructor 1 (some "\x7b") = Except.error InitError.syntaxError ∧
    mount 1 (some "\x7b") [ApiResult.ok { id := "a", joke := "x" }]
      = Except.error InitError.syntaxError :=
  ⟨rfl, rfl, rfl⟩

/-- C5, amended: when the `"jokes"` item is absent or is the empty string, initialisation
does not fail, yields the empty list (with `loading` false and an empty dedup set) and
`componentDidMount` starts a fetch cycle; when the item is a non-empty text that does not
parse as JSON, the constructor throws a `SyntaxError` and the page load ends there. -/
theorem constructor_empty_or_throws (numJokesToGet : Nat) (storage : Option String) :
    ((storage = none ∨ storage = some "") →
      constructor numJokesToGet storage = Except.ok
          { state := { jokes := [], loading := false }, seenJokes := [],
            numJokesToGet := numJokesToGet, storage := storage, alerts := [] } ∧
        componentDidMount (rerender
          { state := { jokes := [], loading := false }, seenJokes := [],
            numJokesToGet := numJokesToGet, storage := storage, alerts := [] }) = true ∧
        ∀ results, mount numJokesToGet storage results
          = match getNewJokes
              { state := { jokes := [], loading := false }, seenJokes := [],
                numJokesToGet := numJokesToGet, storage := storage, alerts := [] } results with
            | none => Except.ok none
            | some e => Except.ok (some (commit e.comp e.callback))) ∧
    (∀ text : String, storage = some text → text ≠ "" → JSON.parse text = none →
      constructor numJokesToGet storage = Except.error InitError.syntaxError ∧
        ∀ results, mount numJokesToGet storage results
          = Except.error InitError.syntaxError) := by
  constructor
  · intro h
    have hc : constructor numJokesToGet storage = Except.ok
        { state := { jokes := [], loading := false }, seenJokes := [],
          numJokesToGet := numJokesToGet, storage := storage, alerts := [] } := by
      rcases h with h | h <;> subst h <;> rfl
    refine ⟨hc, rfl, ?_⟩
    intro results
    simp only [mount, hc]
    rfl
  · intro text hst hne hparse
    subst hst
    have hc : constructor numJokesToGet (some text) = Except.error InitError.syntaxError := by
      simp [constructor, storedText, hne, hparse]
    exact ⟨hc, fun results => by simp only [mount, hc]⟩

/-- The statement of C5, amended, at the two kinds of content: no item, and a lone brace. -/
theorem constructor_empty_or_throws_witness :
    constructor 1 none = Except.ok
        { state := { jokes := [], loading := false }, seenJokes := [],
          numJokesToGet := 1, storage := none, alerts := [] } ∧
    constructor 1 (some "\x7b") = Except.error InitError.syntaxError :=
  ⟨((constructor_empty_or_throws 1 none).1 (Or.inl rfl)).1,
    ((constructor_empty_or_throws 1 (some "\x7b")).2 "\x7b" rfl (by decide) rfl).1⟩

/-- C6: the elements `renderJokes` returns are those of a permutation of the records of
the list, each carrying its record's id, text and votes (and the two vote calls bound to
its id); their votes never increase from first to last; and records with votes `3`, `-1`
and `0`, in whatever order they were inserted, are displayed in the order `3`, `0`, `-1`. -/
theorem renderJokes_spec (st : State) :
    (∃ sorted : List Joke, sorted.Perm st.jokes ∧
      (renderJokes st).2 = sorted.map fun j =>
        { key := j.id, id := j.id, text := j.joke, votes := j.votes,
          upvote := (j.id, 1), downvote := (j.id, -1) }) ∧
    ((renderJokes st).2.map fun p => p.votes).Pairwise (fun x y => y ≤ x) ∧
    ((st.jokes.map fun j => j.votes).Perm [3, -1, 0] →
      ((renderJokes st).2.map fun p => p.votes) = [3, 0, -1]) := by
  have hvotes : ((renderJokes st).2.map fun p => p.votes)
      = (sortJokes st.jokes).map fun j => j.votes := by
    simp [renderJokes, jokeElement, Function.comp_def]
  refine ⟨⟨sortJokes st.jokes, sortJokes_perm st.jokes, rfl⟩, ?_, ?_⟩
  · rw [hvotes]
    exact sortJokes_votes_sorted st.jokes
  · intro hperm
    rw [hvotes]
    have h1 : ((sortJokes st.jokes).map fun j => j.votes).Perm [3, 0, -1] :=
      (((sortJokes_perm st.jokes).map fun j => j.votes).trans hperm).trans (by decide)
    have : IsAntisymm Int (fun x y => y ≤ x) := ⟨fun _ _ h1 h2 => le_antisymm h2 h1⟩
    exact List.eq_of_perm_of_sorted h1 (sortJokes_votes_sorted st.jokes) (by decide)

/-- The statement of C6 at records inserted with votes `-1`, `3`, `0`. -/
theorem renderJokes_spec_witness :
    ((renderJokes
        { jokes := [{ joke := "x", votes := -1, id := "a" }, { joke := "y", votes := 3, id := "b" },
            { joke := "z", votes := 0, id := "c" }],
          loading := false }).2.map fun p => p.votes) = [3, 0, -1] :=
  (renderJokes_spec _).2.2 (by decide)

/-- C7, at the input where the claim fails: on a page load with nothing stored the
constructor leaves `loading` false, the first render keeps it so, and `componentDidMount`
calls `getNewJokes` on that component: the startup cycle runs with `loading` false, whereas
`handleClick` sets it to true before its cycle. -/
theorem startup_cycle_runs_while_not_loading :
    constructor 1 none = Except.ok
        { state := { jokes := [], loading := false }, seenJokes := [],
          numJokesToGet := 1, storage := none, alerts := [] } ∧
    componentDidMount (rerender
        { state := { jokes := [], loading := false }, seenJokes := [],
          numJokesToGet := 1, storage := none, alerts := [] }) = true ∧
    (rerender
        { state := { jokes := [], loading := false }, seenJokes := [],
          numJokesToGet := 1, storage := none, alerts := [] }).state.loading = false ∧
    (rerender (handleClick
        { state := { jokes := [], loading := false }, seenJokes := [],
          numJokesToGet := 1, storage := none, alerts := [] })).state.loading = true ∧
    mount 1 none [] = Except.ok none :=
  ⟨rfl, rfl, rfl, rfl, rfl⟩

/-- C8: for every list of joke records, the item the callback of `handleVote` and
`getNewJokes` writes is `JSON.stringify` of the list in the state, and a controller
constructed from that item starts from exactly that list, record for record and in the
same order; so it is for the item React leaves once it has rendered and run the callback. -/
theorem storage_roundtrip (c : Component) (numJokesToGet : Nat) :
    (persistJokes c).storage = some (JSON.stringify c.state.jokes) ∧
    (persistJokes c).state = c.state ∧
    constructor numJokesToGet (persistJokes c).storage = Except.ok
      { state := { jokes := c.state.jokes, loading := false },
        seenJokes := c.state.jokes.map fun j => j.id,
        numJokesToGet := numJokesToGet,
        storage := (persistJokes c).storage,
        alerts := [] } ∧
    constructor numJokesToGet (commit c true).storage = Except.ok
      { state := { jokes := (commit c true).state.jokes, loading := false },
        seenJokes := (commit c true).state.jokes.map fun j => j.id,
        numJokesToGet := numJokesToGet,
        storage := (commit c true).storage,
        alerts := [] } :=
  ⟨rfl, rfl, constructor_stringify numJokesToGet c.state.jokes,
    constructor_stringify numJokesToGet (rerender c).state.jokes⟩

/-- C9 fails once React has finished the cycle. The page loads with one stored record
whose `votes` is `-1`; the fetch button is clicked and the response is a joke with a new
id. The update installs the old record followed by the new one, but `render` sorts that
list before the callback persists it: state and storage end with the new record (votes
`0`) ahead of the old one, which has not kept its position. -/
theorem click_leaves_new_joke_ahead :
    ∃ c0 c1 : Component,
      mount 1 (some (JSON.stringify [{ joke := "old", votes := -1, id := "s" }])) []
        = Except.ok (some c0) ∧
      c0.state = { jokes := [{ joke := "old", votes := -1, id := "s" }], loading := false } ∧
      c0.seenJokes = ["s"] ∧
      step c0 (Event.click [ApiResult.ok { id := "a", joke := "new" }]) = some c1 ∧
      c1.state.jokes
        = [{ joke := "new", votes := 0, id := "a" }, { joke := "old", votes := -1, id := "s" }] ∧
      c1.state.jokes
        ≠ [{ joke := "old", votes := -1, id := "s" }] ++ [{ joke := "new", votes := 0, id := "a" }] ∧
      c1.storage
        = some (JSON.stringify
            [{ joke := "new", votes := 0, id := "a" }, { joke := "old", votes := -1, id := "s" }]) :=
  ⟨_, _, rfl, rfl, rfl, rfl, by decide, by decide, by decide⟩

/-- C9, amended: when the responses are all successful and at least `numJokesToGet` of
them carry an id outside `seenJokes`, `getNewJokes` ends successfully; it has consumed the
responses in order up to and including the one that brought the count of such ids to
`numJokesToGet` (no shorter run of them reaches that count) and leaves the rest unasked;
its state update sets the list to the former list followed by one record
`{ joke, votes: 0, id }` for each consumed response whose id is outside `seenJokes`, in
arrival order. React then renders and runs the callback: the list left in state and
storage, also by a click on the fetch button, is that list as `renderJokes` sorts it, a
permutation in descending votes, and it is that list itself when the former list was in
descending order with no negative votes. -/
theorem getNewJokes_success (c : Component) (rs : List JokeData)
    (h : c.numJokesToGet ≤ (rs.filter fun d => d.id ∉ c.seenJokes).length) :
    ∃ consumed rest : List JokeData,
      rs = consumed ++ rest ∧
      (consumed.filter fun d => d.id ∉ c.seenJokes).length = c.numJokesToGet ∧
      (∀ q r : List JokeData, consumed = q ++ r → r ≠ [] →
        (q.filter fun d => d.id ∉ c.seenJokes).length < c.numJokesToGet) ∧
      getNewJokes c (rs.map ApiResult.ok) = some
        { comp :=
            { c with
              state :=
                { jokes := c.state.jokes ++
                    (consumed.filter fun d => d.id ∉ c.seenJokes).map fun d =>
                      { joke := d.joke, votes := 0, id := d.id },
                  loading := false } },
          callback := true,
          rest := rest.map ApiResult.ok } ∧
      ∃ c1 : Component,
        c1 = commit
          { c with
            state :=
              { jokes := c.state.jokes ++
                  (consumed.filter fun d => d.id ∉ c.seenJokes).map fun d =>
                    { joke := d.joke, votes := 0, id := d.id },
                loading := false } } true ∧
        step c (Event.click (rs.map ApiResult.ok)) = some c1 ∧
        c1.state.loading = false ∧
        c1.state.jokes = (renderJokes
          { jokes := c.state.jokes ++
              (consumed.filter fun d => d.id ∉ c.seenJokes).map fun d =>
                { joke := d.joke, votes := 0, id := d.id },
            loading := false }).1.jokes ∧
        c1.state.jokes.Perm (c.state.jokes ++
          (consumed.filter fun d => d.id ∉ c.seenJokes).map fun d =>
            { joke := d.joke, votes := 0, id := d.id }) ∧
        c1.state.jokes.Pairwise (fun a b => b.votes ≤ a.votes) ∧
        c1.storage = some (JSON.stringify c1.state.jokes) ∧
        (c.state.jokes.Pairwise (fun a b => b.votes ≤ a.votes) →
          (∀ j ∈ c.state.jokes, 0 ≤ j.votes) →
          c1.state.jokes = c.state.jokes ++
            (consumed.filter fun d => d.id ∉ c.seenJokes).map fun d =>
              { joke := d.joke, votes := 0, id := d.id }) := by
  obtain ⟨consumed, rest, hrs, hcount, hmin, hrun⟩ :=
    fetchLoop_done c.seenJokes c.numJokesToGet rs [] (Nat.zero_le _) (by simpa [fresh] using h)
  have hget : getNewJokes c (rs.map ApiResult.ok) = some
      { comp :=
          { c with
            state :=
              { jokes := c.state.jokes ++
                  (consumed.filter fun d => d.id ∉ c.seenJokes).map fun d =>
                    { joke := d.joke, votes := 0, id := d.id },
                loading := false } },
        callback := true,
        rest := rest.map ApiResult.ok } := by
    simp only [getNewJokes, hrun]
    simp [fresh, newJoke]
  refine ⟨consumed, rest, hrs, by simpa [fresh] using hcount, ?_, hget, _, rfl, ?_, ?_, ?_, ?_,
    ?_, ?_, ?_⟩
  · intro q r hqr hr
    simpa [fresh] using hmin q r hqr hr
  · have hclick : getNewJokes (rerender (handleClick c)) (rs.map ApiResult.ok)
        = getNewJokes { c with state := { c.state with loading := true } }
            (rs.map ApiResult.ok) := by
      simp [rerender, handleClick, render]
    have hsame : getNewJokes { c with state := { c.state with loading := true } }
        (rs.map ApiResult.ok) = some
          { comp :=
              { c with
                state :=
                  { jokes := c.state.jokes ++
                      (consumed.filter fun d => d.id ∉ c.seenJokes).map fun d =>
                        { joke := d.joke, votes := 0, id := d.id },
                    loading := false } },
            callback := true,
            rest := rest.map ApiResult.ok } := by
      simp only [getNewJokes, hrun]
      simp [fresh, newJoke]
    simp only [step, hclick, hsame]
  · simp [commit, persistJokes, rerender, render, renderJokes]
  · simp [commit, persistJokes, rerender, render]
  · simp only [commit, persistJokes, rerender, render, renderJokes, if_true]
    exact sortJokes_perm _
  · simp only [commit, persistJokes, rerender, render, renderJokes, if_true]
    exact sortJokes_sorted _
  · rfl
  · intro hsorted hpos
    simp only [commit, persistJokes, rerender, render, renderJokes, if_true]
    apply sortJokes_of_sorted
    rw [List.pairwise_append]
    refine ⟨hsorted, ?_, ?_⟩
    · rw [List.pairwise_map]
      exact List.pairwise_of_forall fun _ _ => le_refl _
    · intro a ha b hb
      obtain ⟨d, _, rfl⟩ := List.mem_map.1 hb
      exact hpos a ha

/-- The statement of C9, amended, at a cycle asking for two jokes, fed a seen id, a new
one, the seen one again, a second new one and a third. -/
theorem getNewJokes_success_witness :
    ∃ consumed rest : List JokeData,
      [({ id := "s", joke := "old" } : JokeData), { id := "a", joke := "one" },
          { id := "s", joke := "old" }, { id := "b", joke := "two" },
          { id := "c", joke := "three" }] = consumed ++ rest ∧
      (consumed.filter fun d => d.id ∉ ["s"]).length = 2 ∧
      getNewJokes
          { state := { jokes := [{ joke := "old", votes := 3, id := "s" }], loading := true },
            seenJokes := ["s"], numJokesToGet := 2, storage := none, alerts := [] }
          [ApiResult.ok { id := "s", joke := "old" }, ApiResult.ok { id := "a", joke := "one" },
            ApiResult.ok { id := "s", joke := "old" }, ApiResult.ok { id := "b", joke := "two" },
            ApiResult.ok { id := "c", joke := "three" }]
        = some
          { comp :=
              { state :=
                  { jokes := [{ joke := "old", votes := 3, id := "s" }] ++
                      (consumed.filter fun d => d.id ∉ ["s"]).map fun d =>
                        { joke := d.joke, votes := 0, id := d.id },
                    loading := false },
                seenJokes := ["s"], numJokesToGet := 2, storage := none, alerts := [] },
            callback := true,
            rest := rest.map ApiResult.ok } := by
  obtain ⟨consumed, rest, h1, h2, _, h4, _⟩ :=
    getNewJokes_success
      { state := { jokes := [{ joke := "old", votes := 3, id := "s" }], loading := true },
        seenJokes := ["s"], numJokesToGet := 2, storage := none, alerts := [] }
      [{ id := "s", joke := "old" }, { id := "a", joke := "one" }, { id := "s", joke := "old" },
        { id := "b", joke := "two" }, { id := "c", joke := "three" }] (by decide)
  exact ⟨consumed, rest, h1, h2, h4⟩

/-- C10: `renderJokes` changes the state: the list it leaves is a permutation of the list
it found, in order of descending votes, and it is that list whose elements it returns.
What comes after works on that order: `handleVote` maps over it, a successful
`getNewJokes` appends to it, the callback persists it, and a vote on a component that is
not loading is persisted in the order the render after it leaves. The order can differ
from the insertion order, as for votes `0`, `1`. -/
theorem renderJokes_sorts_state (st : State) :
    (renderJokes st).1.loading = st.loading ∧
    (renderJokes st).1.jokes.Perm st.jokes ∧
    (renderJokes st).1.jokes.Pairwise (fun a b => b.votes ≤ a.votes) ∧
    (renderJokes st).2 = (renderJokes st).1.jokes.map jokeElement ∧
    (∀ (id : String) (delta : Int),
      ((∀ j ∈ st.jokes, j.id = id → (j.votes + delta).natAbs ≤ 2 ^ 53) →
        handleVote id delta (renderJokes st).1 = some
          { jokes := (renderJokes st).1.jokes.map fun j =>
              if j.id = id then { j with votes := j.votes + delta } else j,
            loading := st.loading }) ∧
      ∀ st1 : State, handleVote id delta (renderJokes st).1 = some st1 →
        List.Forall₂ (fun j j1 => voteOn id delta j = some j1) (renderJokes st).1.jokes
          st1.jokes) ∧
    (∀ (c : Component) (results : List ApiResult) (e : CycleEnd),
      getNewJokes { c with state := (renderJokes st).1 } results = some e → e.callback = true →
      ∃ jokes, e.comp.state.jokes = (renderJokes st).1.jokes ++ jokes) ∧
    (∀ c : Component,
      (persistJokes { c with state := (renderJokes st).1 }).storage
        = some (JSON.stringify (renderJokes st).1.jokes)) ∧
    (∀ (c : Component) (id : String) (delta : Int) (st1 : State), c.state = st →
      st.loading = false → handleVote id delta st = some st1 →
      ∃ c1, step c (Event.vote id delta) = some c1 ∧
        c1.state.jokes = (renderJokes st1).1.jokes ∧
        c1.storage = some (JSON.stringify (renderJokes st1).1.jokes)) ∧
    (renderJokes
        { jokes := [{ joke := "x", votes := 0, id := "a" }, { joke := "y", votes := 1, id := "b" }],
          loading := false }).1.jokes
      = [{ joke := "y", votes := 1, id := "b" }, { joke := "x", votes := 0, id := "a" }] := by
  refine ⟨rfl, sortJokes_perm st.jokes, sortJokes_sorted st.jokes, rfl, ?_, ?_,
    fun _ => rfl, ?_, by decide⟩
  · intro id delta
    refine ⟨fun hsafe => ?_, fun st1 h => ?_⟩
    · have hmap := mapJokes_eq_map (voteOn id delta)
        (fun j => if j.id = id then { j with votes := j.votes + delta } else j)
        (renderJokes st).1.jokes
        (by
          intro j hj
          have hmem : j ∈ st.jokes := (sortJokes_perm st.jokes).mem_iff.1 hj
          by_cases hid : j.id = id
          · simp [voteOn, hid, addNumber_of_le _ _ (hsafe j hmem hid)]
          · simp [voteOn, hid])
      simp only [handleVote, hmap]
      rfl
    · obtain ⟨jokes, hmap, rfl⟩ := handleVote_some h
      exact mapJokes_forall₂ hmap
  · intro c results e hrun hcb
    unfold getNewJokes at hrun
    split at hrun
    · exact absurd hrun (by simp)
    · rename_i jokes rest _
      simp only [Option.some.injEq] at hrun
      exact ⟨jokes, by rw [← hrun]⟩
    · simp only [Option.some.injEq] at hrun
      rw [← hrun] at hcb
      exact absurd hcb (by simp)
  · intro c id delta st1 hst hl h
    subst hst
    obtain ⟨jokes, _, rfl⟩ := handleVote_some h
    refine ⟨commit { c with state := { c.state with jokes := jokes } } true,
      by simp only [step, h], ?_, ?_⟩ <;>
      simp [commit, persistJokes, rerender, render, hl]

end JokeList
